import Mathlib

/-!
Shallow embedding of the memory-allocation simulator (`Program2.py`).

A free list is a list of `(start, length)` runs over a linear unit space.
Byte sizes and unit counts are modelled as `Int`, matching Python integers;
Python floor division and modulo are `Int.fdiv` and `Int.fmod`.
The mutable `stats` dictionary becomes an explicit `Stats` record threaded
through every operation.  `mallocNF` indexes the free list by
`(last_index + j) % n`; the checked variant `mallocNF?` returns `none`
exactly where the Python code would raise an `IndexError`, so totality of
the scan is a provable statement rather than an assumption.
-/

namespace MemSim

abbrev Block := Int × Int

structure Stats where
  ops_malloc : Nat
  ops_free : Nat
  alloc_calls : Nat
  free_calls : Nat
  alloc_fail : Nat
  deriving Repr, DecidableEq

def stats0 : Stats := ⟨0, 0, 0, 0, 0⟩

/-- Embedding of `round_up_units`: convert bytes to memory units, rounding up.
Python floor division and modulo are `Int.fdiv` and `Int.fmod`. -/
def round_up_units (bytes_needed unit_size : Int) : Int :=
  if bytes_needed ≤ 0 then 0
  else if Int.fmod bytes_needed unit_size = 0 then Int.fdiv bytes_needed unit_size
  else Int.fdiv bytes_needed unit_size + 1

/-- Embedding of `init_free_list`: start with one big free block. -/
def init_free_list (total_units : Int) : List Block := [(0, total_units)]

/-- The left-to-right scan of `mallocFF`: each inspected cell bumps
`ops_malloc`; the first block with `length ≥ units_needed` is carved
(replaced by its leftover, or removed on an exact fit). -/
def ffScan (units_needed : Int) : List Block → Stats → Int × List Block × Stats
  | [], s => (-1, [], { s with alloc_fail := s.alloc_fail + 1 })
  | (start, length) :: rest, s =>
    let s1 : Stats := { s with ops_malloc := s.ops_malloc + 1 }
    if units_needed ≤ length then
      if 0 < length - units_needed then
        (start, (start + units_needed, length - units_needed) :: rest, s1)
      else
        (start, rest, s1)
    else
      let r := ffScan units_needed rest s1
      (r.1, (start, length) :: r.2.1, r.2.2)

/-- Embedding of `mallocFF` (First Fit). -/
def mallocFF (bytes_needed unit_size : Int) (free_list : List Block) (s : Stats) :
    Int × List Block × Stats :=
  let units_needed := round_up_units bytes_needed unit_size
  if units_needed = 0 then (-1, free_list, s)
  else ffScan units_needed free_list { s with alloc_calls := s.alloc_calls + 1 }

/-- The wrapped scan of `mallocNF`: position `j` of the `for j in range(n)`
loop inspects index `(last_index + j) % len`; `fuel` is the number of loop
positions still to run (initially `len`).  A failed list access returns
`none`, which is the embedding of a Python `IndexError`. -/
def nfGo (units_needed : Int) (last_index len : Nat) (fl : List Block) :
    Nat → Nat → Stats → Option (Int × List Block × Nat × Stats)
  | _, 0, s => some (-1, fl, last_index, { s with alloc_fail := s.alloc_fail + 1 })
  | j, fuel + 1, s =>
    let i := (last_index + j) % len
    let s1 : Stats := { s with ops_malloc := s.ops_malloc + 1 }
    match fl[i]? with
    | none => none
    | some (start, length) =>
      if units_needed ≤ length then
        if 0 < length - units_needed then
          some (start, fl.set i (start + units_needed, length - units_needed), i, s1)
        else
          some (start, fl.eraseIdx i,
            (if i < last_index ∧ 0 < last_index then last_index - 1 else last_index), s1)
      else nfGo units_needed last_index len fl (j + 1) fuel s1

/-- Embedding of `mallocNF` (Next Fit), with `none` marking an out-of-range
list access. -/
def mallocNF? (bytes_needed unit_size : Int) (free_list : List Block) (s : Stats)
    (last_index : Nat) : Option (Int × List Block × Nat × Stats) :=
  let units_needed := round_up_units bytes_needed unit_size
  if units_needed = 0 then some (-1, free_list, last_index, s)
  else
    let s1 : Stats := { s with alloc_calls := s.alloc_calls + 1 }
    if free_list.length = 0 then
      some (-1, free_list, last_index, { s1 with alloc_fail := s1.alloc_fail + 1 })
    else nfGo units_needed last_index free_list.length free_list 0 free_list.length s1

/-- Total version of `mallocNF`; the checked scan always returns a value,
so the default is never used. -/
def mallocNF (bytes_needed unit_size : Int) (free_list : List Block) (s : Stats)
    (last_index : Nat) : Int × List Block × Nat × Stats :=
  (mallocNF? bytes_needed unit_size free_list s last_index).getD
    (-1, free_list, last_index, s)

/-- The Best Fit update rule: a block beats the current candidate when the
candidate is `None` or the block is strictly smaller (`length < best_size`),
so ties keep the first occurrence. -/
def bfBeats (best : Option (Nat × Int × Int)) (length : Int) : Bool :=
  match best with
  | none => true
  | some (_, _, best_size) => length < best_size

/-- The full scan of `mallocBF`, accumulating `(best_index, start, length)`. -/
def bfChoose (units_needed : Int) :
    List Block → Nat → Option (Nat × Int × Int) → Option (Nat × Int × Int)
  | [], _, best => best
  | (start, length) :: rest, i, best =>
    let best1 := if units_needed ≤ length ∧ bfBeats best length then
        some (i, start, length) else best
    bfChoose units_needed rest (i + 1) best1

/-- Carving the chosen block at index `i`: replace it by its leftover when
`length - units_needed > 0`, otherwise remove it. -/
def carve (units_needed : Int) : List Block → Nat → List Block
  | [], _ => []
  | (start, length) :: rest, 0 =>
    if 0 < length - units_needed then (start + units_needed, length - units_needed) :: rest
    else rest
  | blk :: rest, i + 1 => blk :: carve units_needed rest i

/-- Embedding of `mallocBF` (Best Fit). -/
def mallocBF (bytes_needed unit_size : Int) (free_list : List Block) (s : Stats) :
    Int × List Block × Stats :=
  let units_needed := round_up_units bytes_needed unit_size
  if units_needed = 0 then (-1, free_list, s)
  else
    let s1 : Stats := { s with alloc_calls := s.alloc_calls + 1,
                               ops_malloc := s.ops_malloc + free_list.length }
    match bfChoose units_needed free_list 0 none with
    | none => (-1, free_list, { s1 with alloc_fail := s1.alloc_fail + 1 })
    | some (i, start, _) => (start, carve units_needed free_list i, s1)

/-- The Worst Fit update rule: Python initialises `worst_size = -1` and takes
a block when `length ≥ units_needed` and `length > worst_size`, so ties keep
the first occurrence. -/
def wfBeats (worst : Option (Nat × Int × Int)) (length : Int) : Bool :=
  match worst with
  | none => -1 < length
  | some (_, _, worst_size) => worst_size < length

/-- The full scan of `mallocWF`, accumulating `(worst_index, start, length)`. -/
def wfChoose (units_needed : Int) :
    List Block → Nat → Option (Nat × Int × Int) → Option (Nat × Int × Int)
  | [], _, worst => worst
  | (start, length) :: rest, i, worst =>
    let worst1 := if units_needed ≤ length ∧ wfBeats worst length then
        some (i, start, length) else worst
    wfChoose units_needed rest (i + 1) worst1

/-- Embedding of `mallocWF` (Worst Fit). -/
def mallocWF (bytes_needed unit_size : Int) (free_list : List Block) (s : Stats) :
    Int × List Block × Stats :=
  let units_needed := round_up_units bytes_needed unit_size
  if units_needed = 0 then (-1, free_list, s)
  else
    let s1 : Stats := { s with alloc_calls := s.alloc_calls + 1,
                               ops_malloc := s.ops_malloc + free_list.length }
    match wfChoose units_needed free_list 0 none with
    | none => (-1, free_list, { s1 with alloc_fail := s1.alloc_fail + 1 })
    | some (i, start, _) => (start, carve units_needed free_list i, s1)

/-- Sorting the free list by `start`; `free_list.sort(key=lambda x: x[0])` is
a stable sort, and insertion sort is stable as well. -/
def sortByStart (l : List Block) : List Block :=
  l.insertionSort (fun a b => a.1 ≤ b.1)

/-- One step of the coalescing pass of `free_block`: `tail` is the last block
of the merged output so far; an incoming block is merged into it when
`tail.start + tail.length == block.start`, else `tail` is emitted and the
incoming block becomes the new tail. -/
def coalesceGo : Block → List Block → List Block
  | tail, [] => [tail]
  | tail, blk :: rest =>
    if tail.1 + tail.2 = blk.1 then coalesceGo (tail.1, tail.2 + blk.2) rest
    else tail :: coalesceGo blk rest

/-- The single left-to-right coalescing pass of `free_block`. -/
def coalesceRun : List Block → List Block
  | [] => []
  | blk :: rest => coalesceGo blk rest

/-- Embedding of `free_block`: degenerate releases are ignored, otherwise the
block is appended, the list re-sorted by `start`, and one coalescing pass is
made; the pass inspects every cell of the sorted list, bumping `ops_free`. -/
def free_block (start units : Int) (free_list : List Block) (s : Stats) :
    List Block × Stats :=
  if start < 0 ∨ units ≤ 0 then (free_list, s)
  else
    let s1 : Stats := { s with free_calls := s.free_calls + 1 }
    let sorted := sortByStart (free_list ++ [(start, units)])
    (coalesceRun sorted, { s1 with ops_free := s1.ops_free + sorted.length })

/-- Sum of the lengths of all runs in a free list. -/
def sumLen (l : List Block) : Int := (l.map (fun b => b.2)).sum

/-- Strict separation of two runs: the first ends strictly before the second
starts (adjacent free runs never touch). -/
def sep (a b : Block) : Prop := a.1 + a.2 < b.1

/-- Well-formedness of a free list: runs are pairwise strictly separated in
list order (hence sorted strictly ascending by `start`) and every length is
at least 1. -/
def WFfl (l : List Block) : Prop := l.Pairwise sep ∧ ∀ b ∈ l, 1 ≤ b.2

instance : ∀ a b : Block, Decidable (sep a b) := fun a b =>
  inferInstanceAs (Decidable (a.1 + a.2 < b.1))

instance instDecPairwiseSep : (l : List Block) → Decidable (l.Pairwise sep)
  | [] => isTrue List.Pairwise.nil
  | b :: t =>
    have : Decidable (t.Pairwise sep) := instDecPairwiseSep t
    decidable_of_iff ((∀ x ∈ t, sep b x) ∧ t.Pairwise sep) List.pairwise_cons.symm

instance : DecidablePred WFfl := fun l =>
  inferInstanceAs (Decidable (l.Pairwise sep ∧ ∀ b ∈ l, 1 ≤ b.2))

/-- The result of carving `n` units at index `i` out of a free list: the
chosen block `(st, L)` fits, and it is replaced by its leftover when one
remains, removed otherwise.  All four placement policies produce exactly
this shape on success. -/
def CarvedAt (n : Int) (fl : List Block) (i : Nat) (st L : Int)
    (fl' : List Block) : Prop :=
  fl[i]? = some (st, L) ∧ n ≤ L ∧
    fl' = if n < L then fl.set i (st + n, L - n) else fl.eraseIdx i

/-- Strict order on runs by start address. -/
def ltStart (a b : Block) : Prop := a.1 < b.1

/-- Weak separation of two runs: the first ends at or before the second
starts. -/
def wsep (a b : Block) : Prop := a.1 + a.2 ≤ b.1

/-- Two runs occupy disjoint unit ranges. -/
def Disj (a b : Block) : Prop := a.1 + a.2 ≤ b.1 ∨ b.1 + b.2 ≤ a.1

instance : IsAntisymm Block ltStart :=
  ⟨fun a b h1 h2 => absurd (lt_trans h1 h2) (lt_irrefl _)⟩

instance : IsTrans Block (fun a b : Block => a.1 ≤ b.1) :=
  ⟨fun _ _ _ => le_trans⟩

instance : IsTotal Block (fun a b : Block => a.1 ≤ b.1) :=
  ⟨fun a b => le_total a.1 b.1⟩

/-- The four placement policies of the simulator. -/
inductive Policy
  | FF
  | NF
  | BF
  | WF
  deriving DecidableEq, Repr

/-- Dispatch on the policy, exactly as the `algorithm_name` branches of
`simulate` do; policies other than Next Fit leave the cursor unchanged. -/
def mallocBy : Policy → Int → Int → List Block → Stats → Nat →
    Int × List Block × Nat × Stats
  | Policy.FF, b, u, fl, s, nfi =>
    let r := mallocFF b u fl s
    (r.1, r.2.1, nfi, r.2.2)
  | Policy.NF, b, u, fl, s, nfi => mallocNF b u fl s nfi
  | Policy.BF, b, u, fl, s, nfi =>
    let r := mallocBF b u fl s
    (r.1, r.2.1, nfi, r.2.2)
  | Policy.WF, b, u, fl, s, nfi =>
    let r := mallocWF b u fl s
    (r.1, r.2.1, nfi, r.2.2)

/-- A sequence of allocation requests, each of which must succeed; returns
the `(location, units)` pairs in request order together with the final
allocator state. -/
def runAllocs (u : Int) : List (Policy × Int) → List Block → Nat → Stats →
    Option (List (Int × Int) × List Block × Nat × Stats)
  | [], fl, nfi, s => some ([], fl, nfi, s)
  | (pol, b) :: rest, fl, nfi, s =>
    let r := mallocBy pol b u fl s nfi
    if r.1 = -1 then none
    else
      (runAllocs u rest r.2.1 r.2.2.1 r.2.2.2).map
        (fun p => ((r.1, round_up_units b u) :: p.1, p.2))

/-- Release a list of `(location, units)` pairs in order with `free_block`. -/
def runFrees : List (Int × Int) → List Block → Stats → List Block × Stats
  | [], fl, s => (fl, s)
  | (loc, un) :: rest, fl, s =>
    let r := free_block loc un fl s
    runFrees rest r.1 r.2

/-! ## The tick-driven simulator

`simulate` is embedded as a step function on an explicit state record.
File output (summary, log) is pure output and is omitted; everything that
feeds back into the simulation state is modelled.  Python mutates shared
`Job` objects referenced from several queues; here the `active_jobs` list
is the single store of jobs keyed by their unique `id`, and the ready and
I/O queues hold ids.  The `cpu_idle` flag of the source is redundant with
`current_job is None` (the only way either is consulted) and is not
carried.  Randomness (`random.seed(10)` plus `randint` and `random` calls)
is modelled by an oracle stream `rng` consumed one draw at a time;
`randint(a, b)` maps draw `v` to `a + (v mod (b - a + 1))`, which realises
every in-range value, and the `random.random() < 0.05` test maps a draw to
a one-in-twenty event. -/

inductive JType
  | small
  | medium
  | large
  deriving DecidableEq, Repr

structure HeapBlock where
  loc : Int
  units : Int
  death : Int
  bytes : Int
  deriving DecidableEq, Repr

structure Job where
  id : Nat
  jtype : JType
  run_total : Int
  run_left : Int
  code_bytes : Int
  stack_bytes : Int
  heap_total : Int
  heap_left : Int
  start_time : Int
  code_loc : Int
  stack_loc : Int
  heap_blocks : List HeapBlock
  is_lost : Bool
  deriving DecidableEq, Repr

/-- Embedding of `Job.heap_per_tick`. -/
def Job.heap_per_tick (j : Job) : Int :=
  if j.run_total ≤ 0 then 0
  else
    let per_tick := Int.fdiv j.heap_total j.run_total
    if per_tick ≤ 0 then 1 else per_tick

structure SimParams where
  policy : Policy
  small_pct : Int
  med_pct : Int
  large_pct : Int
  unit_size : Int
  total_units : Int
  lost_mode : Bool
  rng : Nat → Nat

structure SimSt where
  rk : Nat
  free_list : List Block
  allocated_units : Int
  required_bytes_sum : Int
  heap_alloc_count : Nat
  heap_bytes_sum : Int
  lost_count : Nat
  lost_bytes : Int
  max_allocated_units : Int
  alloc_fail_count : Nat
  stats : Stats
  ready_queue : List Nat
  active_jobs : List Job
  current_job : Option Nat
  io_queue : List Nat
  io_idle : Bool
  io_job : Option Nat
  io_done_time : Int
  count_small : Nat
  count_medium : Nat
  count_large : Nat
  job_id_counter : Nat
  base_arrival : Int
  next_arrival : Int
  next_fit_index : Nat
  sim_time : Int

/-- Draw `k` of the modelled `randint(a, bnd)`. -/
def randInt (p : SimParams) (k : Nat) (a bnd : Int) : Int :=
  a + Int.ofNat (p.rng k % (bnd - a + 1).toNat)

/-- Draw `k` of the modelled `random.random() < 0.05` test. -/
def ioRoll (p : SimParams) (k : Nat) : Bool := p.rng k % 20 = 0

/-- The allocation half of an arrival: attempt code then stack placement on
the current policy and accept the job (crediting `allocated_units` and the
byte bookkeeping) or reject it (counting the failure); a successful code or
stack allocation of a rejected job is not rolled back. -/
def arrivalAlloc (p : SimParams) (st : SimSt) (jt : JType)
    (run_time code_size stack_size heap_total : Int) (is_lost : Bool) : SimSt :=
  let rc := mallocBy p.policy code_size p.unit_size st.free_list st.stats
    st.next_fit_index
  let rs := mallocBy p.policy stack_size p.unit_size rc.2.1 rc.2.2.2 rc.2.2.1
  let st1 : SimSt := { st with
    free_list := rs.2.1,
    stats := rs.2.2.2,
    next_fit_index := rs.2.2.1 }
  if rc.1 ≠ -1 ∧ rs.1 ≠ -1 then
    let code_units := round_up_units code_size p.unit_size
    let stack_units := round_up_units stack_size p.unit_size
    let allocated := st.allocated_units + (code_units + stack_units)
    let job : Job := {
      id := st.job_id_counter,
      jtype := jt,
      run_total := run_time,
      run_left := run_time,
      code_bytes := code_size,
      stack_bytes := stack_size,
      heap_total := heap_total,
      heap_left := heap_total,
      start_time := st.sim_time,
      code_loc := rc.1,
      stack_loc := rs.1,
      heap_blocks := [],
      is_lost := is_lost }
    { st1 with
      allocated_units := allocated,
      required_bytes_sum := st.required_bytes_sum + (code_size + stack_size),
      max_allocated_units :=
        if st.max_allocated_units < allocated then allocated
        else st.max_allocated_units,
      ready_queue := st.ready_queue ++ [st.job_id_counter],
      active_jobs := st.active_jobs ++ [job],
      job_id_counter := st.job_id_counter + 1 }
  else
    { st1 with alloc_fail_count := st.alloc_fail_count + 1 }

/-- The arrival phase of a tick: when `sim_time ≥ next_arrival`, schedule
the next arrival, sample a job type and its sizes, build the job, attempt
code then stack allocation, and accept (queueing the job) or reject
(counting the failure, with no rollback of a successful code or stack
allocation). -/
def arrivalPhase (p : SimParams) (st : SimSt) : SimSt :=
  if st.next_arrival ≤ st.sim_time then
    let base_arrival := st.base_arrival + 3
    let next_arrival := base_arrival + randInt p st.rk 0 4
    let r := randInt p (st.rk + 1) 1 100
    let jt : JType := if r ≤ p.small_pct then JType.small
      else if r ≤ p.small_pct + p.med_pct then JType.medium
      else JType.large
    let run_time0 := (match jt with
      | JType.small => 5 + randInt p (st.rk + 2) (-1) 1
      | JType.medium => 10 + randInt p (st.rk + 2) (-1) 1
      | JType.large => 25 + randInt p (st.rk + 2) (-1) 1)
    let code_size0 := (match jt with
      | JType.small => 60 + randInt p (st.rk + 3) (-20) 20
      | JType.medium => 90 + randInt p (st.rk + 3) (-30) 30
      | JType.large => 170 + randInt p (st.rk + 3) (-50) 50)
    let stack_size0 := (match jt with
      | JType.small => 30 + randInt p (st.rk + 4) (-10) 10
      | JType.medium => 60 + randInt p (st.rk + 4) (-20) 20
      | JType.large => 90 + randInt p (st.rk + 4) (-30) 30)
    let heap_total := (match jt with
      | JType.small => run_time0 * 50
      | JType.medium => run_time0 * 100
      | JType.large => run_time0 * 250)
    let run_time := if run_time0 < 1 then 1 else run_time0
    let code_size := if code_size0 < 1 then 1 else code_size0
    let stack_size := if stack_size0 < 1 then 1 else stack_size0
    let tc := (match jt with
      | JType.small => st.count_small + 1
      | JType.medium => st.count_medium + 1
      | JType.large => st.count_large + 1)
    let count_small := if jt = JType.small then tc else st.count_small
    let count_medium := if jt = JType.medium then tc else st.count_medium
    let count_large := if jt = JType.large then tc else st.count_large
    let is_lost := p.lost_mode && (tc % 100 == 0)
    arrivalAlloc p
      { st with
        rk := st.rk + 5,
        base_arrival := base_arrival,
        next_arrival := next_arrival,
        count_small := count_small,
        count_medium := count_medium,
        count_large := count_large }
      jt run_time code_size stack_size heap_total is_lost
  else st

/-- Accumulated allocator state threaded through the heap-lifetime sweep. -/
structure SweepAcc where
  free_list : List Block
  stats : Stats
  allocated_units : Int
  required_bytes_sum : Int
  lost_count : Nat
  lost_bytes : Int

/-- Sweep the heap blocks of one job: expired blocks are freed (or counted
as lost for a lost job) and dropped, live blocks are kept in order. -/
def sweepBlocks (simT : Int) (isLost : Bool) :
    List HeapBlock → SweepAcc → List HeapBlock × SweepAcc
  | [], acc => ([], acc)
  | blk :: rest, acc =>
    if blk.death ≤ simT then
      if isLost = false then
        let r := free_block blk.loc blk.units acc.free_list acc.stats
        let req := acc.required_bytes_sum - blk.bytes
        sweepBlocks simT isLost rest { acc with
          free_list := r.1,
          stats := r.2,
          allocated_units := acc.allocated_units - blk.units,
          required_bytes_sum := if req < 0 then 0 else req }
      else
        sweepBlocks simT isLost rest { acc with
          lost_count := acc.lost_count + 1,
          lost_bytes := acc.lost_bytes + blk.bytes }
    else
      let r := sweepBlocks simT isLost rest acc
      (blk :: r.1, r.2)

/-- The heap-lifetime sweep over every active job. -/
def sweepJobs (simT : Int) : List Job → SweepAcc → List Job × SweepAcc
  | [], acc => ([], acc)
  | j :: rest, acc =>
    let r := sweepBlocks simT j.is_lost j.heap_blocks acc
    let r2 := sweepJobs simT rest r.2
    ({ j with heap_blocks := r.1 } :: r2.1, r2.2)

def sweepPhase (st : SimSt) : SimSt :=
  let r := sweepJobs st.sim_time st.active_jobs
    { free_list := st.free_list, stats := st.stats,
      allocated_units := st.allocated_units,
      required_bytes_sum := st.required_bytes_sum,
      lost_count := st.lost_count, lost_bytes := st.lost_bytes }
  { st with
    active_jobs := r.1,
    free_list := r.2.free_list,
    stats := r.2.stats,
    allocated_units := r.2.allocated_units,
    required_bytes_sum := r.2.required_bytes_sum,
    lost_count := r.2.lost_count,
    lost_bytes := r.2.lost_bytes }

/-- I/O completion: a finished I/O job rejoins the tail of the ready
queue. -/
def ioCompletePhase (st : SimSt) : SimSt :=
  if st.io_idle = false ∧ st.io_done_time ≤ st.sim_time then
    match st.io_job with
    | some jid =>
      { st with
        ready_queue := st.ready_queue ++ [jid],
        io_job := none,
        io_idle := true }
    | none => { st with io_job := none, io_idle := true }
  else st

/-- I/O start: an idle device takes the head of the I/O queue for 1 to 3
ticks. -/
def ioStartPhase (p : SimParams) (st : SimSt) : SimSt :=
  match st.io_idle, st.io_queue with
  | true, jid :: rest =>
    { st with
      io_job := some jid,
      io_queue := rest,
      io_idle := false,
      io_done_time := st.sim_time + randInt p st.rk 1 3,
      rk := st.rk + 1 }
  | _, _ => st

/-- CPU dispatch: an idle CPU pops the head of the ready queue. -/
def dispatchPhase (st : SimSt) : SimSt :=
  match st.current_job, st.ready_queue with
  | none, jid :: rest => { st with current_job := some jid, ready_queue := rest }
  | _, _ => st

def findJob (jobs : List Job) (jid : Nat) : Option Job :=
  jobs.find? (fun j => j.id == jid)

def updateJob (jobs : List Job) (j : Job) : List Job :=
  jobs.map (fun x => if x.id == j.id then j else x)

def removeJob (jobs : List Job) (jid : Nat) : List Job :=
  jobs.filter (fun x => ¬ x.id == jid)

/-- Allocator-facing state threaded through one execution tick. -/
structure ExecAcc where
  rk : Nat
  free_list : List Block
  stats : Stats
  next_fit_index : Nat
  allocated_units : Int
  required_bytes_sum : Int
  heap_alloc_count : Nat
  heap_bytes_sum : Int
  max_allocated_units : Int
  alloc_fail_count : Nat

/-- Up to `per_tick` heap-allocation attempts of the executing job, stopping
early when `heap_left ≤ 0`; each successful allocation records a block with
its death tick, each failure counts. -/
def heapLoop (p : SimParams) (simT : Int) :
    Nat → Job → ExecAcc → Job × ExecAcc
  | 0, j, acc => (j, acc)
  | k + 1, j, acc =>
    if j.heap_left ≤ 0 then (j, acc)
    else
      let hs0 := 35 + randInt p acc.rk (-15) 15
      let heap_size := if hs0 < 1 then 1 else hs0
      let life := if 0 < j.run_left then randInt p (acc.rk + 1) 1 j.run_left else 1
      let rk2 := if 0 < j.run_left then acc.rk + 2 else acc.rk + 1
      let death_time := simT + life
      let r := mallocBy p.policy heap_size p.unit_size acc.free_list acc.stats
        acc.next_fit_index
      let acc1 := { acc with
        rk := rk2,
        free_list := r.2.1,
        stats := r.2.2.2,
        next_fit_index := r.2.2.1 }
      if r.1 ≠ -1 then
        let units := round_up_units heap_size p.unit_size
        let alloc1 := acc.allocated_units + units
        heapLoop p simT k
          { j with
            heap_blocks := j.heap_blocks ++ [⟨r.1, units, death_time, heap_size⟩],
            heap_left := j.heap_left - 1 }
          { acc1 with
            allocated_units := alloc1,
            required_bytes_sum := acc.required_bytes_sum + heap_size,
            heap_alloc_count := acc.heap_alloc_count + 1,
            heap_bytes_sum := acc.heap_bytes_sum + heap_size,
            max_allocated_units :=
              if acc.max_allocated_units < alloc1 then alloc1
              else acc.max_allocated_units }
      else
        heapLoop p simT k j
          { acc1 with alloc_fail_count := acc.alloc_fail_count + 1 }

/-- Release the remaining heap blocks of a completing job. -/
def freeHeapBlocks : List HeapBlock → SimSt → SimSt
  | [], st => st
  | blk :: rest, st =>
    let r := free_block blk.loc blk.units st.free_list st.stats
    let req := st.required_bytes_sum - blk.bytes
    freeHeapBlocks rest { st with
      free_list := r.1,
      stats := r.2,
      allocated_units := st.allocated_units - blk.units,
      required_bytes_sum := if req < 0 then 0 else req }

/-- Job completion: free stack and code, then free (or lose) the remaining
heap blocks, and remove the job from the active set. -/
def finishJob (p : SimParams) (st : SimSt) (j : Job) : SimSt :=
  let code_units := round_up_units j.code_bytes p.unit_size
  let stack_units := round_up_units j.stack_bytes p.unit_size
  let r1 := free_block j.stack_loc stack_units st.free_list st.stats
  let r2 := free_block j.code_loc code_units r1.1 r1.2
  let req := st.required_bytes_sum - (j.code_bytes + j.stack_bytes)
  let st1 := { st with
    free_list := r2.1,
    stats := r2.2,
    allocated_units := st.allocated_units - (code_units + stack_units),
    required_bytes_sum := if req < 0 then 0 else req }
  let st2 :=
    if j.is_lost = false then freeHeapBlocks j.heap_blocks st1
    else { st1 with
      lost_count := st1.lost_count + j.heap_blocks.length,
      lost_bytes := st1.lost_bytes + (j.heap_blocks.map (fun b => b.bytes)).sum }
  { st2 with
    active_jobs := removeJob st2.active_jobs j.id,
    current_job := none }

/-- One execution tick of the current job: a possible I/O diversion (when
more than one tick remains), otherwise heap-allocation attempts and one
unit of CPU credit; a job reaching `run_left ≤ 0` completes. -/
def execAcc0 (st : SimSt) : ExecAcc :=
  { rk := st.rk + 1,
    free_list := st.free_list,
    stats := st.stats,
    next_fit_index := st.next_fit_index,
    allocated_units := st.allocated_units,
    required_bytes_sum := st.required_bytes_sum,
    heap_alloc_count := st.heap_alloc_count,
    heap_bytes_sum := st.heap_bytes_sum,
    max_allocated_units := st.max_allocated_units,
    alloc_fail_count := st.alloc_fail_count }

/-- The normal CPU tick of the running job: the heap-allocation attempts,
one unit of CPU credit, and completion when the run is exhausted. -/
def execRun (p : SimParams) (st : SimSt) (j : Job) : SimSt :=
  let r := heapLoop p st.sim_time j.heap_per_tick.toNat j (execAcc0 st)
  let j1 : Job := { r.1 with run_left := r.1.run_left - 1 }
  let st1 : SimSt := { st with
    rk := r.2.rk,
    free_list := r.2.free_list,
    stats := r.2.stats,
    next_fit_index := r.2.next_fit_index,
    allocated_units := r.2.allocated_units,
    required_bytes_sum := r.2.required_bytes_sum,
    heap_alloc_count := r.2.heap_alloc_count,
    heap_bytes_sum := r.2.heap_bytes_sum,
    max_allocated_units := r.2.max_allocated_units,
    alloc_fail_count := r.2.alloc_fail_count,
    active_jobs := updateJob st.active_jobs j1 }
  if j1.run_left ≤ 0 then finishJob p st1 j1 else st1

/-- The last time unit of a job: just run, no new I/O or heap allocation. -/
def execLast (p : SimParams) (st : SimSt) (j : Job) : SimSt :=
  let j1 : Job := { j with run_left := j.run_left - 1 }
  let st1 : SimSt := { st with active_jobs := updateJob st.active_jobs j1 }
  if j1.run_left ≤ 0 then finishJob p st1 j1 else st1

def execPhase (p : SimParams) (st : SimSt) : SimSt :=
  match st.current_job with
  | none => st
  | some cid =>
    match findJob st.active_jobs cid with
    | none => st
    | some j =>
      if 1 < j.run_left then
        if ioRoll p st.rk then
          { st with
            rk := st.rk + 1,
            io_queue := st.io_queue ++ [cid],
            current_job := none }
        else execRun p st j
      else execLast p st j

/-- One full tick of `simulate`: the ordered phases, then time advances.
Metrics emission and logging are pure output and are omitted. -/
def tick (p : SimParams) (st : SimSt) : SimSt :=
  let st1 := arrivalPhase p st
  let st2 := sweepPhase st1
  let st3 := ioCompletePhase st2
  let st4 := ioStartPhase p st3
  let st5 := dispatchPhase st4
  let st6 := execPhase p st5
  { st6 with sim_time := st6.sim_time + 1 }

/-- The state of `simulate` just before entering the main loop. -/
def initSt (p : SimParams) : SimSt :=
  { rk := 1, free_list := init_free_list p.total_units,
    allocated_units := 0, required_bytes_sum := 0,
    heap_alloc_count := 0, heap_bytes_sum := 0,
    lost_count := 0, lost_bytes := 0,
    max_allocated_units := 0, alloc_fail_count := 0,
    stats := stats0, ready_queue := [], active_jobs := [],
    current_job := none, io_queue := [], io_idle := true, io_job := none,
    io_done_time := -1, count_small := 0, count_medium := 0,
    count_large := 0, job_id_counter := 1, base_arrival := 1,
    next_arrival := 1 + randInt p 0 0 4, next_fit_index := 0, sim_time := 0 }

/-- The end-of-tick states of a run of `simulate`. -/
def simSteps (p : SimParams) (k : Nat) : SimSt := (tick p)^[k] (initSt p)

/-- A job record as maintained by the driver: code and stack were placed at
non-negative locations, the clamped byte sizes are positive, and every
outstanding heap block sits at a non-negative location with a positive unit
count. -/
def JobOK (j : Job) : Prop :=
  0 ≤ j.code_loc ∧ 0 ≤ j.stack_loc ∧ 1 ≤ j.code_bytes ∧ 1 ≤ j.stack_bytes ∧
  ∀ hb ∈ j.heap_blocks, 0 ≤ hb.loc ∧ 1 ≤ hb.units

/-- The memory invariant carried through the tick loop: free runs start at
non-negative addresses, every active job is well-recorded, and the free
units plus `allocated_units` never exceed `total_units` (partial arrival
failures leak, so only the inequality is invariant). -/
def MemInv (p : SimParams) (st : SimSt) : Prop :=
  (∀ b ∈ st.free_list, 0 ≤ b.1) ∧
  (∀ j ∈ st.active_jobs, JobOK j) ∧
  sumLen st.free_list + st.allocated_units ≤ p.total_units

/-- The oracle stream realising the concrete counterexample run: the first
arrival is a small job with code 80 bytes and stack 20 bytes. -/
def cexRng : Nat → Nat := fun k => if k = 4 then 40 else 0

/-- First Fit run with 100 percent small jobs, 8-byte units and 10 total
units under the counterexample stream. -/
def cexParams : SimParams :=
  { policy := Policy.FF, small_pct := 100, med_pct := 0, large_pct := 0,
    unit_size := 8, total_units := 10, lost_mode := false, rng := cexRng }

theorem round_up_of_nonpos {b u : Int} (h : b ≤ 0) : round_up_units b u = 0 := by
  simp [round_up_units, h]

theorem round_up_pos {b u : Int} (hu : 1 ≤ u) (hb : 1 ≤ b) :
    1 ≤ round_up_units b u := by
  have hu0 : (0 : Int) ≤ u := by omega
  have hb0 : ¬ b ≤ 0 := by omega
  unfold round_up_units
  rw [if_neg hb0, Int.fmod_eq_emod b hu0, Int.fdiv_eq_ediv b hu0]
  split
  · next h0 =>
    have hdvd : u ∣ b := Int.dvd_of_emod_eq_zero h0
    have hub : u ≤ b := Int.le_of_dvd (by omega) hdvd
    exact (Int.le_ediv_iff_mul_le (by omega)).mpr (by omega)
  · have : 0 ≤ b / u := Int.ediv_nonneg (by omega) hu0
    omega

theorem round_up_nonneg {b u : Int} (hu : 1 ≤ u) : 0 ≤ round_up_units b u := by
  by_cases hb : b ≤ 0
  · rw [round_up_of_nonpos hb]
  · have := round_up_pos hu (by omega : 1 ≤ b); omega

theorem sumLen_nil : sumLen [] = 0 := rfl

theorem sumLen_cons (b : Block) (l : List Block) :
    sumLen (b :: l) = b.2 + sumLen l := by
  simp [sumLen]

theorem sumLen_append (l1 l2 : List Block) :
    sumLen (l1 ++ l2) = sumLen l1 + sumLen l2 := by
  simp [sumLen]

theorem sumLen_perm {l1 l2 : List Block} (h : l1.Perm l2) :
    sumLen l1 = sumLen l2 :=
  (h.map _).sum_eq

theorem sumLen_set : ∀ (l : List Block) (i : Nat) (st L : Int) (x : Block),
    l[i]? = some (st, L) → sumLen (l.set i x) = sumLen l - L + x.2
  | [], i, _, _, _, h => by simp at h
  | b :: t, 0, st, L, x, h => by
    simp only [List.getElem?_cons_zero, Option.some.injEq] at h
    subst h
    simp [sumLen_cons]
    ring
  | b :: t, i + 1, st, L, x, h => by
    simp only [List.getElem?_cons_succ] at h
    simp only [List.set_cons_succ, sumLen_cons, sumLen_set t i st L x h]
    ring

theorem sumLen_eraseIdx : ∀ (l : List Block) (i : Nat) (st L : Int),
    l[i]? = some (st, L) → sumLen (l.eraseIdx i) = sumLen l - L
  | [], i, _, _, h => by simp at h
  | b :: t, 0, st, L, h => by
    simp only [List.getElem?_cons_zero, Option.some.injEq] at h
    subst h
    simp [List.eraseIdx, sumLen_cons]
  | b :: t, i + 1, st, L, h => by
    simp only [List.getElem?_cons_succ] at h
    simp only [List.eraseIdx_cons_succ, sumLen_cons,
      sumLen_eraseIdx t i st L h]
    ring

theorem CarvedAt.exact {n : Int} {fl : List Block} {i : Nat} {st L : Int}
    {fl' : List Block} (h : CarvedAt n fl i st L fl') (hlt : ¬ n < L) :
    L = n := by
  obtain ⟨_, hle, _⟩ := h
  omega

theorem CarvedAt.sum {n : Int} {fl : List Block} {i : Nat} {st L : Int}
    {fl' : List Block} (h : CarvedAt n fl i st L fl') :
    sumLen fl' = sumLen fl - n := by
  obtain ⟨hg, hle, hfl⟩ := h
  by_cases hlt : n < L
  · rw [hfl, if_pos hlt, sumLen_set fl i st L _ hg]
    simp
  · have hLn : L = n := by omega
    rw [hfl, if_neg hlt, sumLen_eraseIdx fl i st L hg, hLn]

theorem CarvedAt.start_nonneg {n : Int} {fl : List Block} {i : Nat}
    {st L : Int} {fl' : List Block} (h : CarvedAt n fl i st L fl')
    (hb : ∀ b ∈ fl, 0 ≤ b.1) : 0 ≤ st := by
  have hmem : (st, L) ∈ fl := List.getElem?_mem h.1
  exact hb (st, L) hmem

theorem CarvedAt.starts {n : Int} {fl : List Block} {i : Nat} {st L : Int}
    {fl' : List Block} (h : CarvedAt n fl i st L fl') (hn : 0 ≤ n)
    (hb : ∀ b ∈ fl, 0 ≤ b.1) : ∀ b ∈ fl', 0 ≤ b.1 := by
  obtain ⟨hg, hle, hfl⟩ := h
  intro b hbmem
  by_cases hlt : n < L
  · rw [hfl, if_pos hlt] at hbmem
    rcases List.mem_or_eq_of_mem_set hbmem with h1 | h1
    · exact hb b h1
    · subst h1
      have : 0 ≤ st := hb (st, L) (List.getElem?_mem hg)
      simp
      omega
  · rw [hfl, if_neg hlt] at hbmem
    exact hb b ((fl.eraseIdx_sublist i).subset hbmem)

theorem carve_eq : ∀ (fl : List Block) (i : Nat) (n st L : Int),
    fl[i]? = some (st, L) →
    carve n fl i = if n < L then fl.set i (st + n, L - n) else fl.eraseIdx i
  | [], i, _, _, _, h => by simp at h
  | (s0, L0) :: t, 0, n, st, L, h => by
    simp only [List.getElem?_cons_zero, Option.some.injEq, Prod.mk.injEq] at h
    obtain ⟨h1, h2⟩ := h
    subst h1; subst h2
    by_cases hlt : n < L0
    · rw [carve, if_pos (by omega : 0 < L0 - n), if_pos hlt]
      rfl
    · rw [carve, if_neg (by omega : ¬ 0 < L0 - n), if_neg hlt]
      rfl
  | b :: t, i + 1, n, st, L, h => by
    simp only [List.getElem?_cons_succ] at h
    rw [carve, carve_eq t i n st L h]
    by_cases hlt : n < L
    · rw [if_pos hlt, if_pos hlt, List.set_cons_succ]
    · rw [if_neg hlt, if_neg hlt, List.eraseIdx_cons_succ]

theorem ffScan_no_fit {n : Int} : ∀ (fl : List Block) (s : Stats),
    (∀ b ∈ fl, b.2 < n) →
    ffScan n fl s = (-1, fl,
      { s with ops_malloc := s.ops_malloc + fl.length,
               alloc_fail := s.alloc_fail + 1 })
  | [], s, _ => by simp [ffScan]
  | (s0, L0) :: t, s, h => by
    have h0 : ¬ n ≤ L0 := by
      have := h (s0, L0) (List.mem_cons_self _ _)
      omega
    rw [ffScan, if_neg h0,
      ffScan_no_fit t _ (fun b hb => h b (List.mem_cons_of_mem _ hb))]
    simp
    omega

theorem ffScan_fit {n : Int} : ∀ (fl : List Block) (s : Stats),
    (∃ b ∈ fl, n ≤ b.2) →
    ∃ i st L, CarvedAt n fl i st L (ffScan n fl s).2.1 ∧
      (ffScan n fl s).1 = st ∧
      (∀ k b, k < i → fl[k]? = some b → b.2 < n)
  | [], _, h => by simp at h
  | (s0, L0) :: t, s, h => by
    by_cases h0 : n ≤ L0
    · refine ⟨0, s0, L0, ⟨by simp, h0, ?_⟩, ?_, ?_⟩
      · by_cases hlt : n < L0
        · rw [if_pos hlt, ffScan, if_pos h0, if_pos (by omega : 0 < L0 - n)]
          rfl
        · rw [if_neg hlt, ffScan, if_pos h0, if_neg (by omega : ¬ 0 < L0 - n)]
          rfl
      · by_cases hlt : 0 < L0 - n <;> rw [ffScan, if_pos h0]
        · rw [if_pos hlt]
        · rw [if_neg hlt]
      · intro k b hk
        omega
    · have ht : ∃ b ∈ t, n ≤ b.2 := by
        rcases h with ⟨b, hb, hfit⟩
        rcases List.mem_cons.mp hb with h1 | h1
        · subst h1; omega
        · exact ⟨b, h1, hfit⟩
      obtain ⟨i, st, L, ⟨hg, hle, hshape⟩, hloc, hearly⟩ :=
        ffScan_fit t { s with ops_malloc := s.ops_malloc + 1 } ht
      have hscan : ffScan n ((s0, L0) :: t) s =
          ((ffScan n t { s with ops_malloc := s.ops_malloc + 1 }).1,
            (s0, L0) :: (ffScan n t { s with ops_malloc := s.ops_malloc + 1 }).2.1,
            (ffScan n t { s with ops_malloc := s.ops_malloc + 1 }).2.2) := by
        rw [ffScan, if_neg h0]
      refine ⟨i + 1, st, L, ⟨by simpa using hg, hle, ?_⟩, by rw [hscan]; exact hloc, ?_⟩
      · rw [hscan]
        simp only []
        rw [hshape]
        by_cases hlt : n < L
        · rw [if_pos hlt, if_pos hlt, List.set_cons_succ]
        · rw [if_neg hlt, if_neg hlt, List.eraseIdx_cons_succ]
      · intro k b hk hgb
        cases k with
        | zero =>
          simp at hgb
          subst hgb
          simp only
          omega
        | succ k' =>
          simp at hgb
          exact hearly k' b (by omega) hgb

theorem bfChoose_cons {n : Int} (st L : Int) (t : List Block) (i0 : Nat)
    (b0 : Option (Nat × Int × Int)) :
    bfChoose n ((st, L) :: t) i0 b0 =
      bfChoose n t (i0 + 1)
        (if n ≤ L ∧ bfBeats b0 L then some (i0, st, L) else b0) := rfl

theorem bfChoose_eq_none {n : Int} : ∀ (l : List Block) (i0 : Nat)
    (b0 : Option (Nat × Int × Int)),
    bfChoose n l i0 b0 = none ↔ b0 = none ∧ ∀ b ∈ l, b.2 < n
  | [], i0, b0 => by simp [bfChoose]
  | (st, L) :: t, i0, b0 => by
    rw [bfChoose_cons, bfChoose_eq_none t]
    by_cases hc : n ≤ L ∧ bfBeats b0 L
    · rw [if_pos hc]
      simp only [List.mem_cons]
      constructor
      · rintro ⟨h1, _⟩
        exact absurd h1 (by simp)
      · rintro ⟨hb0, hall⟩
        have := hall (st, L) (Or.inl rfl)
        simp at this
        omega
    · rw [if_neg hc]
      constructor
      · rintro ⟨hb0, hall⟩
        subst hb0
        refine ⟨rfl, ?_⟩
        intro b hb
        rcases List.mem_cons.mp hb with h1 | h1
        · subst h1
          have hnl : ¬ n ≤ L := fun hf => hc ⟨hf, by simp [bfBeats]⟩
          simp only
          omega
        · exact hall b h1
      · rintro ⟨hb0, hall⟩
        exact ⟨hb0, fun b hb => hall b (List.mem_cons_of_mem _ hb)⟩

theorem bfChoose_some_src {n : Int} : ∀ (l : List Block) (i0 : Nat)
    (b0 : Option (Nat × Int × Int)) (i : Nat) (st L : Int),
    bfChoose n l i0 b0 = some (i, st, L) →
    b0 = some (i, st, L) ∨
      (∃ k, l[k]? = some (st, L) ∧ i = i0 + k ∧ n ≤ L)
  | [], i0, b0, i, st, L => by
    intro h
    simp only [bfChoose] at h
    exact Or.inl h
  | (s0, L0) :: t, i0, b0, i, st, L => by
    rw [bfChoose_cons]
    intro h
    rcases bfChoose_some_src t (i0 + 1) _ i st L h with h1 | ⟨k, hk, hik, hfit⟩
    · by_cases hc : n ≤ L0 ∧ bfBeats b0 L0
      · rw [if_pos hc] at h1
        simp at h1
        obtain ⟨hi, hst, hL⟩ := h1
        right
        exact ⟨0, by simp [hst, hL], by omega, by rw [← hL]; exact hc.1⟩
      · rw [if_neg hc] at h1
        exact Or.inl h1
    · right
      exact ⟨k + 1, by simpa using hk, by omega, hfit⟩

theorem bfChoose_mono {n : Int} : ∀ (l : List Block) (i0 : Nat)
    (j0 : Nat) (s0 L0 : Int) (i : Nat) (st L : Int),
    bfChoose n l i0 (some (j0, s0, L0)) = some (i, st, L) →
    (i = j0 ∧ st = s0 ∧ L = L0) ∨ L < L0
  | [], i0, j0, s0, L0, i, st, L => by
    intro h
    simp only [bfChoose, Option.some.injEq, Prod.mk.injEq] at h
    exact Or.inl ⟨h.1.symm, h.2.1.symm, h.2.2.symm⟩
  | (s1, L1) :: t, i0, j0, s0, L0, i, st, L => by
    rw [bfChoose_cons]
    by_cases hc : n ≤ L1 ∧ bfBeats (some (j0, s0, L0)) L1
    · rw [if_pos hc]
      intro h
      have hL1 : L1 < L0 := by
        have := hc.2
        simpa [bfBeats] using this
      rcases bfChoose_mono t (i0 + 1) i0 s1 L1 i st L h with ⟨_, _, hL⟩ | hL
      · right; omega
      · right; omega
    · rw [if_neg hc]
      exact bfChoose_mono t (i0 + 1) j0 s0 L0 i st L

theorem bfChoose_min {n : Int} : ∀ (l : List Block) (i0 : Nat)
    (b0 : Option (Nat × Int × Int)) (i : Nat) (st L : Int),
    bfChoose n l i0 b0 = some (i, st, L) →
    ∀ b ∈ l, n ≤ b.2 → L ≤ b.2
  | [], _, _, _, _, _ => by simp
  | (s1, L1) :: t, i0, b0, i, st, L => by
    rw [bfChoose_cons]
    intro h b hb hfit
    rcases List.mem_cons.mp hb with h1 | h1
    · subst h1
      simp only at hfit
      by_cases hc : n ≤ L1 ∧ bfBeats b0 L1
      · rw [if_pos hc] at h
        rcases bfChoose_mono t (i0 + 1) i0 s1 L1 i st L h with ⟨_, _, hL⟩ | hL
        · omega
        · omega
      · have hb0 : ∃ j0 s0 L0, b0 = some (j0, s0, L0) ∧ L0 ≤ L1 := by
          match b0 with
          | none => exact absurd ⟨hfit, by simp [bfBeats]⟩ hc
          | some (j0, s0, L0) =>
            refine ⟨j0, s0, L0, rfl, ?_⟩
            by_contra hlt
            exact hc ⟨hfit, by simp [bfBeats]; omega⟩
        obtain ⟨j0, s0, L0, hb0eq, hL0⟩ := hb0
        rw [if_neg hc, hb0eq] at h
        rcases bfChoose_mono t (i0 + 1) j0 s0 L0 i st L h with ⟨_, _, hL⟩ | hL
        · omega
        · omega
    · exact bfChoose_min t (i0 + 1) _ i st L h b h1 hfit

theorem bfChoose_first {n : Int} : ∀ (l : List Block) (i0 : Nat)
    (b0 : Option (Nat × Int × Int)),
    (∀ j s0 L0, b0 = some (j, s0, L0) → j < i0) →
    ∀ i st L, bfChoose n l i0 b0 = some (i, st, L) →
    ∀ k b, i0 + k < i → l[k]? = some b → n ≤ b.2 → L < b.2
  | [], _, _, _, _, _, _ => by simp
  | (s1, L1) :: t, i0, b0, hb, i, st, L => by
    rw [bfChoose_cons]
    intro h k b hki hgb hfit
    have hb1 : ∀ j s0 L0,
        (if n ≤ L1 ∧ bfBeats b0 L1 then some (i0, s1, L1) else b0) =
          some (j, s0, L0) → j < i0 + 1 := by
      intro j s0 L0 hj
      by_cases hc : n ≤ L1 ∧ bfBeats b0 L1
      · rw [if_pos hc] at hj
        simp at hj
        omega
      · rw [if_neg hc] at hj
        have := hb j s0 L0 hj
        omega
    cases k with
    | zero =>
      simp at hgb
      subst hgb
      simp only at hfit
      by_cases hc : n ≤ L1 ∧ bfBeats b0 L1
      · rw [if_pos hc] at h
        rcases bfChoose_mono t (i0 + 1) i0 s1 L1 i st L h with ⟨hi, _, _⟩ | hL
        · omega
        · omega
      · have hb0 : ∃ j0 s0 L0, b0 = some (j0, s0, L0) ∧ L0 ≤ L1 := by
          match b0 with
          | none => exact absurd ⟨hfit, by simp [bfBeats]⟩ hc
          | some (j0, s0, L0) =>
            refine ⟨j0, s0, L0, rfl, ?_⟩
            by_contra hlt
            exact hc ⟨hfit, by simp [bfBeats]; omega⟩
        obtain ⟨j0, s0, L0, hb0eq, hL0⟩ := hb0
        rw [if_neg hc, hb0eq] at h
        rcases bfChoose_mono t (i0 + 1) j0 s0 L0 i st L h with ⟨hi, _, hL⟩ | hL
        · have := hb j0 s0 L0 hb0eq
          omega
        · omega
    | succ k' =>
      simp at hgb
      exact bfChoose_first t (i0 + 1) _ hb1 i st L h k' b (by omega) hgb hfit

theorem wfChoose_cons {n : Int} (st L : Int) (t : List Block) (i0 : Nat)
    (b0 : Option (Nat × Int × Int)) :
    wfChoose n ((st, L) :: t) i0 b0 =
      wfChoose n t (i0 + 1)
        (if n ≤ L ∧ wfBeats b0 L then some (i0, st, L) else b0) := rfl

theorem wfChoose_eq_none {n : Int} (hn : 1 ≤ n) : ∀ (l : List Block) (i0 : Nat)
    (b0 : Option (Nat × Int × Int)),
    wfChoose n l i0 b0 = none ↔ b0 = none ∧ ∀ b ∈ l, b.2 < n
  | [], i0, b0 => by simp [wfChoose]
  | (st, L) :: t, i0, b0 => by
    rw [wfChoose_cons, wfChoose_eq_none hn t]
    by_cases hc : n ≤ L ∧ wfBeats b0 L
    · rw [if_pos hc]
      simp only [List.mem_cons]
      constructor
      · rintro ⟨h1, _⟩
        exact absurd h1 (by simp)
      · rintro ⟨hb0, hall⟩
        have := hall (st, L) (Or.inl rfl)
        simp at this
        omega
    · rw [if_neg hc]
      constructor
      · rintro ⟨hb0, hall⟩
        subst hb0
        refine ⟨rfl, ?_⟩
        intro b hb
        rcases List.mem_cons.mp hb with h1 | h1
        · subst h1
          have hnl : ¬ n ≤ L := fun hf => hc ⟨hf, by simp [wfBeats]; omega⟩
          simp only
          omega
        · exact hall b h1
      · rintro ⟨hb0, hall⟩
        exact ⟨hb0, fun b hb => hall b (List.mem_cons_of_mem _ hb)⟩

theorem wfChoose_some_src {n : Int} : ∀ (l : List Block) (i0 : Nat)
    (b0 : Option (Nat × Int × Int)) (i : Nat) (st L : Int),
    wfChoose n l i0 b0 = some (i, st, L) →
    b0 = some (i, st, L) ∨
      (∃ k, l[k]? = some (st, L) ∧ i = i0 + k ∧ n ≤ L)
  | [], i0, b0, i, st, L => by
    intro h
    simp only [wfChoose] at h
    exact Or.inl h
  | (s0, L0) :: t, i0, b0, i, st, L => by
    rw [wfChoose_cons]
    intro h
    rcases wfChoose_some_src t (i0 + 1) _ i st L h with h1 | ⟨k, hk, hik, hfit⟩
    · by_cases hc : n ≤ L0 ∧ wfBeats b0 L0
      · rw [if_pos hc] at h1
        simp at h1
        obtain ⟨hi, hst, hL⟩ := h1
        right
        exact ⟨0, by simp [hst, hL], by omega, by rw [← hL]; exact hc.1⟩
      · rw [if_neg hc] at h1
        exact Or.inl h1
    · right
      exact ⟨k + 1, by simpa using hk, by omega, hfit⟩

theorem wfChoose_mono {n : Int} : ∀ (l : List Block) (i0 : Nat)
    (j0 : Nat) (s0 L0 : Int) (i : Nat) (st L : Int),
    wfChoose n l i0 (some (j0, s0, L0)) = some (i, st, L) →
    (i = j0 ∧ st = s0 ∧ L = L0) ∨ L0 < L
  | [], i0, j0, s0, L0, i, st, L => by
    intro h
    simp only [wfChoose, Option.some.injEq, Prod.mk.injEq] at h
    exact Or.inl ⟨h.1.symm, h.2.1.symm, h.2.2.symm⟩
  | (s1, L1) :: t, i0, j0, s0, L0, i, st, L => by
    rw [wfChoose_cons]
    by_cases hc : n ≤ L1 ∧ wfBeats (some (j0, s0, L0)) L1
    · rw [if_pos hc]
      intro h
      have hL1 : L0 < L1 := by
        have := hc.2
        simpa [wfBeats] using this
      rcases wfChoose_mono t (i0 + 1) i0 s1 L1 i st L h with ⟨_, _, hL⟩ | hL
      · right; omega
      · right; omega
    · rw [if_neg hc]
      exact wfChoose_mono t (i0 + 1) j0 s0 L0 i st L

theorem wfChoose_max {n : Int} (hn : 1 ≤ n) : ∀ (l : List Block) (i0 : Nat)
    (b0 : Option (Nat × Int × Int)) (i : Nat) (st L : Int),
    wfChoose n l i0 b0 = some (i, st, L) →
    ∀ b ∈ l, n ≤ b.2 → b.2 ≤ L
  | [], _, _, _, _, _ => by simp
  | (s1, L1) :: t, i0, b0, i, st, L => by
    rw [wfChoose_cons]
    intro h b hb hfit
    rcases List.mem_cons.mp hb with h1 | h1
    · subst h1
      simp only at hfit
      by_cases hc : n ≤ L1 ∧ wfBeats b0 L1
      · rw [if_pos hc] at h
        rcases wfChoose_mono t (i0 + 1) i0 s1 L1 i st L h with ⟨_, _, hL⟩ | hL
        · omega
        · omega
      · have hb0 : ∃ j0 s0 L0, b0 = some (j0, s0, L0) ∧ L1 ≤ L0 := by
          match b0 with
          | none =>
            exact absurd ⟨hfit, by simp [wfBeats]; omega⟩ hc
          | some (j0, s0, L0) =>
            refine ⟨j0, s0, L0, rfl, ?_⟩
            by_contra hlt
            exact hc ⟨hfit, by simp [wfBeats]; omega⟩
        obtain ⟨j0, s0, L0, hb0eq, hL0⟩ := hb0
        rw [if_neg hc, hb0eq] at h
        rcases wfChoose_mono t (i0 + 1) j0 s0 L0 i st L h with ⟨_, _, hL⟩ | hL
        · omega
        · omega
    · exact wfChoose_max hn t (i0 + 1) _ i st L h b h1 hfit

theorem wfChoose_first {n : Int} (hn : 1 ≤ n) : ∀ (l : List Block) (i0 : Nat)
    (b0 : Option (Nat × Int × Int)),
    (∀ j s0 L0, b0 = some (j, s0, L0) → j < i0) →
    ∀ i st L, wfChoose n l i0 b0 = some (i, st, L) →
    ∀ k b, i0 + k < i → l[k]? = some b → n ≤ b.2 → b.2 < L
  | [], _, _, _, _, _, _ => by simp
  | (s1, L1) :: t, i0, b0, hb, i, st, L => by
    rw [wfChoose_cons]
    intro h k b hki hgb hfit
    have hb1 : ∀ j s0 L0,
        (if n ≤ L1 ∧ wfBeats b0 L1 then some (i0, s1, L1) else b0) =
          some (j, s0, L0) → j < i0 + 1 := by
      intro j s0 L0 hj
      by_cases hc : n ≤ L1 ∧ wfBeats b0 L1
      · rw [if_pos hc] at hj
        simp at hj
        omega
      · rw [if_neg hc] at hj
        have := hb j s0 L0 hj
        omega
    cases k with
    | zero =>
      simp at hgb
      subst hgb
      simp only at hfit
      by_cases hc : n ≤ L1 ∧ wfBeats b0 L1
      · rw [if_pos hc] at h
        rcases wfChoose_mono t (i0 + 1) i0 s1 L1 i st L h with ⟨hi, _, _⟩ | hL
        · omega
        · omega
      · have hb0 : ∃ j0 s0 L0, b0 = some (j0, s0, L0) ∧ L1 ≤ L0 := by
          match b0 with
          | none =>
            exact absurd ⟨hfit, by simp [wfBeats]; omega⟩ hc
          | some (j0, s0, L0) =>
            refine ⟨j0, s0, L0, rfl, ?_⟩
            by_contra hlt
            exact hc ⟨hfit, by simp [wfBeats]; omega⟩
        obtain ⟨j0, s0, L0, hb0eq, hL0⟩ := hb0
        rw [if_neg hc, hb0eq] at h
        rcases wfChoose_mono t (i0 + 1) j0 s0 L0 i st L h with ⟨hi, _, hL⟩ | hL
        · have := hb j0 s0 L0 hb0eq
          omega
        · omega
    | succ k' =>
      simp at hgb
      exact wfChoose_first hn t (i0 + 1) _ hb1 i st L h k' b (by omega) hgb hfit

theorem nfGo_isSome {n : Int} {last len : Nat} {fl : List Block}
    (hlen : len = fl.length) (hpos : 0 < len) :
    ∀ (fuel j : Nat) (s : Stats), (nfGo n last len fl j fuel s).isSome
  | 0, j, s => by simp [nfGo]
  | fuel + 1, j, s => by
    have hi : (last + j) % len < fl.length := hlen ▸ Nat.mod_lt _ hpos
    have hblk : fl[(last + j) % len]? = some fl[(last + j) % len] :=
      List.getElem?_eq_getElem hi
    rcases hfl : fl[(last + j) % len] with ⟨start, length⟩
    rw [hfl] at hblk
    simp only [nfGo, hblk]
    by_cases hfit : n ≤ length
    · rw [if_pos hfit]
      by_cases hrem : 0 < length - n
      · rw [if_pos hrem]
        simp
      · rw [if_neg hrem]
        simp
    · rw [if_neg hfit]
      exact nfGo_isSome hlen hpos fuel (j + 1) _

theorem nfGo_spec {n : Int} {last len : Nat} {fl : List Block} :
    ∀ (fuel j : Nat) (s : Stats) (loc : Int) (fl' : List Block) (li : Nat)
      (s' : Stats),
    nfGo n last len fl j fuel s = some (loc, fl', li, s') →
    (loc = -1 ∧ fl' = fl ∧ li = last) ∨
    (∃ i L, CarvedAt n fl i loc L fl' ∧
      li = if n < L then i else if i < last ∧ 0 < last then last - 1 else last)
  | 0, j, s, loc, fl', li, s' => by
    intro h
    simp only [nfGo, Option.some.injEq, Prod.mk.injEq] at h
    exact Or.inl ⟨h.1.symm, h.2.1.symm, h.2.2.1.symm⟩
  | fuel + 1, j, s, loc, fl', li, s' => by
    intro h
    rcases hblk : fl[(last + j) % len]? with _ | ⟨start, length⟩
    · simp only [nfGo, hblk] at h
      exact absurd h (by simp)
    · simp only [nfGo, hblk] at h
      by_cases hfit : n ≤ length
      · rw [if_pos hfit] at h
        by_cases hrem : 0 < length - n
        · rw [if_pos hrem] at h
          simp only [Option.some.injEq, Prod.mk.injEq] at h
          obtain ⟨h1, h2, h3, _⟩ := h
          subst h1
          right
          refine ⟨(last + j) % len, length, ⟨hblk, by omega, ?_⟩, ?_⟩
          · rw [if_pos (by omega : n < length), ← h2]
          · rw [if_pos (by omega : n < length), ← h3]
        · rw [if_neg hrem] at h
          simp only [Option.some.injEq, Prod.mk.injEq] at h
          obtain ⟨h1, h2, h3, _⟩ := h
          subst h1
          right
          refine ⟨(last + j) % len, length, ⟨hblk, hfit, ?_⟩, ?_⟩
          · rw [if_neg (by omega : ¬ n < length), ← h2]
          · rw [if_neg (by omega : ¬ n < length), ← h3]
      · rw [if_neg hfit] at h
        exact nfGo_spec fuel (j + 1) _ loc fl' li s' h

theorem mallocNF?_isSome (b u : Int) (fl : List Block) (s : Stats)
    (last : Nat) : (mallocNF? b u fl s last).isSome := by
  unfold mallocNF?
  by_cases h0 : round_up_units b u = 0
  · rw [if_pos h0]
    simp
  · rw [if_neg h0]
    by_cases hlen : fl.length = 0
    · rw [if_pos hlen]
      simp
    · rw [if_neg hlen]
      exact nfGo_isSome rfl (by omega) fl.length 0 _

theorem mallocNF?_eq_some (b u : Int) (fl : List Block) (s : Stats)
    (last : Nat) : mallocNF? b u fl s last = some (mallocNF b u fl s last) := by
  have h := mallocNF?_isSome b u fl s last
  rcases ho : mallocNF? b u fl s last with _ | r
  · rw [ho] at h
    simp at h
  · rw [mallocNF, ho]
    rfl

theorem mallocNF_shape (b u : Int) (fl : List Block) (s : Stats) (last : Nat)
    {loc : Int} {fl' : List Block} {li : Nat} {s' : Stats}
    (h : mallocNF b u fl s last = (loc, fl', li, s')) :
    (loc = -1 ∧ fl' = fl ∧ li = last) ∨
    (∃ i L, CarvedAt (round_up_units b u) fl i loc L fl' ∧
      li = if round_up_units b u < L then i
        else if i < last ∧ 0 < last then last - 1 else last) := by
  have ho := mallocNF?_eq_some b u fl s last
  rw [h] at ho
  unfold mallocNF? at ho
  by_cases h0 : round_up_units b u = 0
  · rw [if_pos h0] at ho
    simp only [Option.some.injEq, Prod.mk.injEq] at ho
    exact Or.inl ⟨ho.1.symm, ho.2.1.symm, ho.2.2.1.symm⟩
  · rw [if_neg h0] at ho
    by_cases hlen : fl.length = 0
    · rw [if_pos hlen] at ho
      simp only [Option.some.injEq, Prod.mk.injEq] at ho
      exact Or.inl ⟨ho.1.symm, ho.2.1.symm, ho.2.2.1.symm⟩
    · rw [if_neg hlen] at ho
      exact nfGo_spec fl.length 0 _ loc fl' li s' ho

theorem sortByStart_perm (l : List Block) : (sortByStart l).Perm l :=
  List.perm_insertionSort _ l

theorem sortByStart_sorted (l : List Block) :
    (sortByStart l).Pairwise (fun a b : Block => a.1 ≤ b.1) :=
  List.sorted_insertionSort _ l

/-- A stable sort by start of a list with pairwise distinct starts is the
unique start-sorted permutation. -/
theorem sortByStart_eq_of_sorted {l c : List Block} (hp : l.Perm c)
    (hs : c.Pairwise ltStart) : sortByStart l = c := by
  have h1 : (sortByStart l).Perm c := (sortByStart_perm l).trans hp
  have hnodupc : c.Pairwise (fun a b : Block => a.1 ≠ b.1) :=
    hs.imp (fun h => ne_of_lt h)
  have hnodup : (sortByStart l).Pairwise (fun a b : Block => a.1 ≠ b.1) :=
    (List.Perm.pairwise_iff (fun h => Ne.symm h) h1).mpr hnodupc
  have hsorted : (sortByStart l).Pairwise ltStart := by
    refine ((sortByStart_sorted l).and hnodup).imp ?_
    rintro a b ⟨hle, hne⟩
    exact lt_of_le_of_ne hle hne
  exact List.eq_of_perm_of_sorted h1 hsorted hs

theorem coalesceGo_sum : ∀ (l : List Block) (tail : Block),
    sumLen (coalesceGo tail l) = tail.2 + sumLen l
  | [], tail => by simp [coalesceGo, sumLen_cons, sumLen_nil]
  | blk :: rest, tail => by
    rw [coalesceGo]
    by_cases hm : tail.1 + tail.2 = blk.1
    · rw [if_pos hm, coalesceGo_sum rest]
      simp only [sumLen_cons]
      ring
    · rw [if_neg hm, sumLen_cons, coalesceGo_sum rest, sumLen_cons]

theorem coalesceRun_sum (l : List Block) : sumLen (coalesceRun l) = sumLen l := by
  cases l with
  | nil => rfl
  | cons blk rest => rw [coalesceRun, coalesceGo_sum, sumLen_cons]

theorem coalesceGo_head : ∀ (l : List Block) (st L : Int),
    ∃ L' t', coalesceGo (st, L) l = (st, L') :: t'
  | [], st, L => ⟨L, [], rfl⟩
  | blk :: rest, st, L => by
    by_cases hm : st + L = blk.1
    · rw [coalesceGo, if_pos hm]
      exact coalesceGo_head rest st (L + blk.2)
    · rw [coalesceGo, if_neg hm]
      exact ⟨L, coalesceGo blk rest, rfl⟩

theorem coalesceGo_start_prop (P : Int → Prop) : ∀ (l : List Block) (tail : Block),
    P tail.1 → (∀ c ∈ l, P c.1) → ∀ b ∈ coalesceGo tail l, P b.1
  | [], tail, hp, _, b, hb => by
    simp only [coalesceGo, List.mem_singleton] at hb
    subst hb
    exact hp
  | blk :: rest, tail, hp, hl, b, hb => by
    rw [coalesceGo] at hb
    by_cases hm : tail.1 + tail.2 = blk.1
    · rw [if_pos hm] at hb
      exact coalesceGo_start_prop P rest (tail.1, tail.2 + blk.2) hp
        (fun c hc => hl c (List.mem_cons_of_mem _ hc)) b hb
    · rw [if_neg hm] at hb
      rcases List.mem_cons.mp hb with h1 | h1
      · subst h1
        exact hp
      · exact coalesceGo_start_prop P rest blk (hl blk (List.mem_cons_self _ _))
          (fun c hc => hl c (List.mem_cons_of_mem _ hc)) b h1

/-- The coalescing pass applied to a weakly separated list of positive runs
produces a strictly separated list of positive runs. -/
theorem coalesceGo_wf : ∀ (l : List Block) (tail : Block),
    List.Chain' wsep (tail :: l) → 1 ≤ tail.2 → (∀ b ∈ l, 1 ≤ b.2) →
    List.Chain' sep (coalesceGo tail l) ∧ ∀ b ∈ coalesceGo tail l, 1 ≤ b.2
  | [], tail, _, htl, _ => by
    constructor
    · simp [coalesceGo]
    · intro b hb
      simp only [coalesceGo, List.mem_singleton] at hb
      subst hb
      exact htl
  | blk :: rest, tail, hch, htl, hl => by
    have hsep1 : wsep tail blk := (List.chain'_cons'.mp hch).1 blk rfl
    have hch2 : List.Chain' wsep (blk :: rest) := (List.chain'_cons'.mp hch).2
    rw [coalesceGo]
    by_cases hm : tail.1 + tail.2 = blk.1
    · rw [if_pos hm]
      have hch3 : List.Chain' wsep ((tail.1, tail.2 + blk.2) :: rest) := by
        rw [List.chain'_cons']
        refine ⟨?_, (List.chain'_cons'.mp hch2).2⟩
        intro y hy
        have := (List.chain'_cons'.mp hch2).1 y hy
        unfold wsep at this ⊢
        simp only
        omega
      have hblk2 : 1 ≤ blk.2 := hl blk (List.mem_cons_self _ _)
      exact coalesceGo_wf rest (tail.1, tail.2 + blk.2) hch3 (by simp; omega)
        (fun b hb => hl b (List.mem_cons_of_mem _ hb))
    · rw [if_neg hm]
      have hblk2 : 1 ≤ blk.2 := hl blk (List.mem_cons_self _ _)
      have ih := coalesceGo_wf rest blk hch2 hblk2
        (fun b hb => hl b (List.mem_cons_of_mem _ hb))
      constructor
      · rw [List.chain'_cons']
        refine ⟨?_, ih.1⟩
        intro y hy
        obtain ⟨L', t', hgo⟩ := coalesceGo_head rest blk.1 blk.2
        rw [show ((blk.1, blk.2) : Block) = blk from rfl] at hgo
        rw [hgo] at hy
        simp only [List.head?_cons, Option.mem_def, Option.some.injEq] at hy
        subst hy
        unfold wsep at hsep1
        unfold sep
        simp only
        omega
      · intro b hb
        rcases List.mem_cons.mp hb with h1 | h1
        · subst h1
          exact htl
        · exact ih.2 b h1

/-- On an already strictly separated list the coalescing pass is the
identity. -/
theorem coalesceGo_no_merge : ∀ (l : List Block) (tail : Block),
    List.Chain' sep (tail :: l) → coalesceGo tail l = tail :: l
  | [], tail, _ => rfl
  | blk :: rest, tail, hch => by
    have hsep1 : sep tail blk := (List.chain'_cons'.mp hch).1 blk rfl
    have hm : ¬ tail.1 + tail.2 = blk.1 := by
      unfold sep at hsep1
      omega
    rw [coalesceGo, if_neg hm,
      coalesceGo_no_merge rest blk (List.chain'_cons'.mp hch).2]

theorem coalesceRun_no_merge {l : List Block} (hch : List.Chain' sep l) :
    coalesceRun l = l := by
  cases l with
  | nil => rfl
  | cons blk rest => rw [coalesceRun, coalesceGo_no_merge rest blk hch]

/-- Re-coalescing the two halves of a split block restores the original
strictly separated list. -/
theorem coalesceGo_restore : ∀ (pre : List Block) (tail : Block)
    (s L n : Int) (post : List Block),
    List.Chain' sep (tail :: pre ++ (s, L) :: post) →
    coalesceGo tail (pre ++ (s, n) :: (s + n, L - n) :: post) =
      tail :: pre ++ (s, L) :: post
  | [], tail, s, L, n, post, hch => by
    have hsep1 : sep tail (s, L) := (List.chain'_cons'.mp hch).1 (s, L) rfl
    have hm : ¬ tail.1 + tail.2 = s := by
      unfold sep at hsep1
      simp only at hsep1
      omega
    simp only [List.nil_append]
    rw [coalesceGo, if_neg hm, coalesceGo, if_pos rfl,
      show n + (L - n) = L by ring,
      coalesceGo_no_merge post (s, L) ((List.chain'_cons'.mp hch).2)]
    simp
  | p :: pre', tail, s, L, n, post, hch => by
    have hsep1 : sep tail p := (List.chain'_cons'.mp hch).1 p rfl
    have hm : ¬ tail.1 + tail.2 = p.1 := by
      unfold sep at hsep1
      omega
    simp only [List.cons_append]
    rw [coalesceGo, if_neg hm,
      coalesceGo_restore pre' p s L n post (List.chain'_cons'.mp hch).2]
    simp

theorem coalesceRun_restore (pre : List Block) (s L n : Int) (post : List Block)
    (hch : List.Chain' sep (pre ++ (s, L) :: post)) :
    coalesceRun (pre ++ (s, n) :: (s + n, L - n) :: post) =
      pre ++ (s, L) :: post := by
  cases pre with
  | nil =>
    simp only [List.nil_append] at hch ⊢
    rw [coalesceRun, coalesceGo, if_pos rfl, show n + (L - n) = L by ring,
      coalesceGo_no_merge post (s, L) hch]
  | cons p pre' =>
    simp only [List.cons_append] at hch ⊢
    rw [coalesceRun, coalesceGo_restore pre' p s L n post hch]
    simp

theorem chain_sep_pairwise : ∀ (l : List Block), List.Chain' sep l →
    (∀ b ∈ l, 1 ≤ b.2) → l.Pairwise sep
  | [], _, _ => List.Pairwise.nil
  | a :: t, hch, hlen => by
    have ht : t.Pairwise sep :=
      chain_sep_pairwise t (List.chain'_cons'.mp hch).2
        (fun b hb => hlen b (List.mem_cons_of_mem _ hb))
    rw [List.pairwise_cons]
    refine ⟨?_, ht⟩
    cases t with
    | nil => simp
    | cons b t' =>
      have hab : sep a b := (List.chain'_cons'.mp hch).1 b rfl
      have hbt : ∀ x ∈ t', sep b x := (List.pairwise_cons.mp ht).1
      intro x hx
      rcases List.mem_cons.mp hx with h1 | h1
      · subst h1
        exact hab
      · have hxb := hbt x h1
        have hb2 : 1 ≤ b.2 := hlen b (List.mem_cons_of_mem _ (List.mem_cons_self _ _))
        unfold sep at hab hxb ⊢
        omega

theorem wf_of_chain {l : List Block} (hch : List.Chain' sep l)
    (hlen : ∀ b ∈ l, 1 ≤ b.2) : WFfl l :=
  ⟨chain_sep_pairwise l hch hlen, hlen⟩

theorem WFfl.chain {l : List Block} (h : WFfl l) : List.Chain' sep l :=
  h.1.chain'

theorem getElem?_decomp : ∀ (l : List Block) (i : Nat) (b : Block),
    l[i]? = some b → ∃ l1 l2, l = l1 ++ b :: l2 ∧ l1.length = i
  | [], _, _, h => by simp at h
  | x :: t, 0, b, h => by
    simp only [List.getElem?_cons_zero, Option.some.injEq] at h
    subst h
    exact ⟨[], t, rfl, rfl⟩
  | x :: t, i + 1, b, h => by
    simp only [List.getElem?_cons_succ] at h
    obtain ⟨l1, l2, hdecomp, hlen⟩ := getElem?_decomp t i b h
    exact ⟨x :: l1, l2, by rw [hdecomp]; rfl, by simp [hlen]⟩

theorem set_decomp : ∀ (l1 : List Block) (b x : Block) (l2 : List Block),
    (l1 ++ b :: l2).set l1.length x = l1 ++ x :: l2
  | [], _, _, _ => rfl
  | y :: t, b, x, l2 => by
    simp only [List.cons_append, List.length_cons, List.set_cons_succ,
      set_decomp t b x l2]

theorem erase_decomp : ∀ (l1 : List Block) (b : Block) (l2 : List Block),
    (l1 ++ b :: l2).eraseIdx l1.length = l1 ++ l2
  | [], _, _ => rfl
  | y :: t, b, l2 => by
    simp only [List.cons_append, List.length_cons, List.eraseIdx_cons_succ,
      erase_decomp t b l2]

/-- Carving a fitting block out of a well-formed free list leaves a
well-formed free list. -/
theorem CarvedAt.wf {n : Int} {fl : List Block} {i : Nat} {st L : Int}
    {fl' : List Block} (h : CarvedAt n fl i st L fl') (hwf : WFfl fl)
    (hn : 1 ≤ n) : WFfl fl' := by
  obtain ⟨hg, hle, hshape⟩ := h
  obtain ⟨l1, l2, hdecomp, hlen1⟩ := getElem?_decomp fl i (st, L) hg
  have hwfp := hwf.1
  have hlens := hwf.2
  rw [hdecomp] at hwfp hlens
  obtain ⟨hp1, hp2, hcross⟩ := List.pairwise_append.mp hwfp
  obtain ⟨hmid, hp2'⟩ := List.pairwise_cons.mp hp2
  by_cases hlt : n < L
  · rw [if_pos hlt] at hshape
    have hfl' : fl' = l1 ++ (st + n, L - n) :: l2 := by
      rw [hshape, hdecomp, ← hlen1, set_decomp]
    constructor
    · rw [hfl']
      refine List.pairwise_append.mpr ⟨hp1, ?_, ?_⟩
      · refine List.pairwise_cons.mpr ⟨?_, hp2'⟩
        intro y hy
        have := hmid y hy
        unfold sep at this ⊢
        simp only at this ⊢
        omega
      · intro a ha b hb
        rcases List.mem_cons.mp hb with h1 | h1
        · subst h1
          have := hcross a ha (st, L) (List.mem_cons_self _ _)
          unfold sep at this ⊢
          simp only at this ⊢
          omega
        · exact hcross a ha b (List.mem_cons_of_mem _ h1)
    · rw [hfl']
      intro b hb
      rcases List.mem_append.mp hb with h1 | h1
      · exact hlens b (List.mem_append_left _ h1)
      · rcases List.mem_cons.mp h1 with h2 | h2
        · subst h2
          simp only
          omega
        · exact hlens b (List.mem_append_right _ (List.mem_cons_of_mem _ h2))
  · rw [if_neg hlt] at hshape
    have hfl' : fl' = l1 ++ l2 := by
      rw [hshape, hdecomp, ← hlen1, erase_decomp]
    constructor
    · rw [hfl']
      refine List.pairwise_append.mpr ⟨hp1, hp2', ?_⟩
      intro a ha b hb
      exact hcross a ha b (List.mem_cons_of_mem _ hb)
    · rw [hfl']
      intro b hb
      rcases List.mem_append.mp hb with h1 | h1
      · exact hlens b (List.mem_append_left _ h1)
      · exact hlens b (List.mem_append_right _ (List.mem_cons_of_mem _ h1))

theorem free_block_noop {st un : Int} {fl : List Block} {s : Stats}
    (h : st < 0 ∨ un ≤ 0) : free_block st un fl s = (fl, s) := by
  rw [free_block, if_pos h]

theorem free_block_sum (st un : Int) (fl : List Block) (s : Stats)
    (hst : 0 ≤ st) (hun : 1 ≤ un) :
    sumLen (free_block st un fl s).1 = sumLen fl + un := by
  rw [free_block, if_neg (by omega)]
  simp only
  rw [coalesceRun_sum, sumLen_perm (sortByStart_perm _), sumLen_append]
  simp [sumLen_cons, sumLen_nil]

theorem free_block_starts (st un : Int) (fl : List Block) (s : Stats)
    (hst : 0 ≤ st) (hb : ∀ b ∈ fl, 0 ≤ b.1) :
    ∀ b ∈ (free_block st un fl s).1, 0 ≤ b.1 := by
  by_cases hdeg : st < 0 ∨ un ≤ 0
  · rw [free_block_noop hdeg]
    exact hb
  · rw [free_block, if_neg hdeg]
    simp only
    intro b hbm
    have hsorted : ∀ c ∈ sortByStart (fl ++ [(st, un)]), 0 ≤ c.1 := by
      intro c hc
      have hc2 : c ∈ fl ++ [(st, un)] := (sortByStart_perm _).subset hc
      rcases List.mem_append.mp hc2 with h1 | h1
      · exact hb c h1
      · simp only [List.mem_singleton] at h1
        subst h1
        exact hst
    rcases hs : sortByStart (fl ++ [(st, un)]) with _ | ⟨x, t⟩
    · rw [hs] at hbm
      simp [coalesceRun] at hbm
    · rw [hs, coalesceRun] at hbm
      refine coalesceGo_start_prop (fun v => 0 ≤ v) t x ?_ ?_ b hbm
      · exact hsorted x (by rw [hs]; exact List.mem_cons_self _ _)
      · intro c hc
        exact hsorted c (by rw [hs]; exact List.mem_cons_of_mem _ hc)

theorem chain_wsep_of_sorted : ∀ (l : List Block),
    l.Pairwise (fun a b : Block => a.1 ≤ b.1) → l.Pairwise Disj →
    (∀ b ∈ l, 1 ≤ b.2) → List.Chain' wsep l
  | [], _, _, _ => List.chain'_nil
  | a :: t, hle, hdisj, hlen => by
    rw [List.chain'_cons']
    refine ⟨?_, chain_wsep_of_sorted t (List.pairwise_cons.mp hle).2
      (List.pairwise_cons.mp hdisj).2
      (fun b hb => hlen b (List.mem_cons_of_mem _ hb))⟩
    intro y hy
    cases t with
    | nil => simp at hy
    | cons c t' =>
      have hyc : y = c := by
        simp only [List.head?_cons, Option.mem_def, Option.some.injEq] at hy
        exact hy.symm
      subst hyc
      have h1 : a.1 ≤ y.1 :=
        (List.pairwise_cons.mp hle).1 y (List.mem_cons_self _ _)
      have h2 : Disj a y :=
        (List.pairwise_cons.mp hdisj).1 y (List.mem_cons_self _ _)
      have h3 : 1 ≤ y.2 :=
        hlen y (List.mem_cons_of_mem _ (List.mem_cons_self _ _))
      unfold Disj at h2
      unfold wsep
      omega

/-- Releasing a range disjoint from every run of a well-formed free list
leaves a well-formed free list. -/
theorem free_block_wf {st un : Int} {fl : List Block} (s : Stats)
    (hwf : WFfl fl)
    (hdisj : ∀ blk ∈ fl, st + un ≤ blk.1 ∨ blk.1 + blk.2 ≤ st) :
    WFfl (free_block st un fl s).1 := by
  by_cases hdeg : st < 0 ∨ un ≤ 0
  · rw [free_block_noop hdeg]
    exact hwf
  · have hun : 1 ≤ un := by omega
    rw [free_block, if_neg hdeg]
    simp only
    have hlen : ∀ b ∈ sortByStart (fl ++ [(st, un)]), 1 ≤ b.2 := by
      intro b hb
      rcases List.mem_append.mp ((sortByStart_perm _).subset hb) with h1 | h1
      · exact hwf.2 b h1
      · simp only [List.mem_singleton] at h1
        subst h1
        exact hun
    have hpd : (fl ++ [(st, un)]).Pairwise Disj := by
      refine List.pairwise_append.mpr ⟨?_, ?_, ?_⟩
      · exact hwf.1.imp (fun h => Or.inl (le_of_lt h))
      · simp
      · intro a ha b hb
        simp only [List.mem_singleton] at hb
        subst hb
        rcases hdisj a ha with h1 | h1
        · exact Or.inr h1
        · exact Or.inl h1
    have hpds : (sortByStart (fl ++ [(st, un)])).Pairwise Disj := by
      refine (List.Perm.pairwise_iff ?_ (sortByStart_perm _)).mpr hpd
      intro a b h
      unfold Disj at h ⊢
      omega
    have hchain : List.Chain' wsep (sortByStart (fl ++ [(st, un)])) :=
      chain_wsep_of_sorted _ (sortByStart_sorted _) hpds hlen
    rcases hs : sortByStart (fl ++ [(st, un)]) with _ | ⟨x, t⟩
    · exact ⟨List.Pairwise.nil, by simp [coalesceRun]⟩
    · rw [hs] at hchain hlen
      rw [coalesceRun]
      obtain ⟨hc, hl⟩ := coalesceGo_wf t x hchain
        (hlen x (List.mem_cons_self _ _))
        (fun b hb => hlen b (List.mem_cons_of_mem _ hb))
      exact wf_of_chain hc hl

/-- Releasing exactly what a carve took restores the free list: the inverse
law behind the reverse-deallocation round trip. -/
theorem free_carve {n : Int} {fl : List Block} {i : Nat} {st L : Int}
    {fl' : List Block} (h : CarvedAt n fl i st L fl') (hwf : WFfl fl)
    (hst : 0 ≤ st) (hn : 1 ≤ n) (s : Stats) :
    (free_block st n fl' s).1 = fl := by
  obtain ⟨hg, hle, hshape⟩ := h
  obtain ⟨l1, l2, hdecomp, hlen1⟩ := getElem?_decomp fl i (st, L) hg
  have hwfp := hwf.1
  have hlens := hwf.2
  have hchain : List.Chain' sep fl := hwfp.chain'
  have hltfl : fl.Pairwise ltStart := by
    refine hwfp.imp_of_mem ?_
    intro a b ha _ hsep
    have h2 : 1 ≤ a.2 := hlens a ha
    unfold sep at hsep
    unfold ltStart
    omega
  rw [hdecomp] at hwfp hlens
  obtain ⟨hp1, hp2, hcross⟩ := List.pairwise_append.mp hwfp
  obtain ⟨hmid, hp2'⟩ := List.pairwise_cons.mp hp2
  rw [free_block, if_neg (by omega)]
  simp only
  by_cases hlt : n < L
  · rw [if_pos hlt] at hshape
    have hfl' : fl' = l1 ++ (st + n, L - n) :: l2 := by
      rw [hshape, hdecomp, ← hlen1, set_decomp]
    have hperm : (fl' ++ [(st, n)]).Perm
        (l1 ++ (st, n) :: (st + n, L - n) :: l2) := by
      rw [hfl', List.append_assoc]
      exact List.Perm.append_left l1
        (List.perm_append_singleton _ _)
    have hcand : (l1 ++ (st, n) :: (st + n, L - n) :: l2).Pairwise ltStart := by
      refine List.pairwise_append.mpr ⟨?_, ?_, ?_⟩
      · refine hp1.imp_of_mem ?_
        intro a b ha _ hsep
        have h2 : 1 ≤ a.2 := hlens a (List.mem_append_left _ ha)
        unfold sep at hsep
        unfold ltStart
        omega
      · refine List.pairwise_cons.mpr ⟨?_, List.pairwise_cons.mpr ⟨?_, ?_⟩⟩
        · intro y hy
          rcases List.mem_cons.mp hy with h1 | h1
          · subst h1
            unfold ltStart
            simp only
            omega
          · have := hmid y h1
            unfold sep at this
            unfold ltStart
            simp only at this ⊢
            omega
        · intro y hy
          have := hmid y hy
          unfold sep at this
          unfold ltStart
          simp only at this ⊢
          omega
        · refine hp2'.imp_of_mem ?_
          intro a b ha _ hsep
          have h2 : 1 ≤ a.2 :=
            hlens a (List.mem_append_right _ (List.mem_cons_of_mem _ ha))
          unfold sep at hsep
          unfold ltStart
          omega
      · intro a ha b hb
        have hsepa : sep a (st, L) := hcross a ha (st, L) (List.mem_cons_self _ _)
        have h2 : 1 ≤ a.2 := hlens a (List.mem_append_left _ ha)
        rcases List.mem_cons.mp hb with h1 | h1
        · subst h1
          unfold sep at hsepa
          unfold ltStart
          simp only at hsepa ⊢
          omega
        · rcases List.mem_cons.mp h1 with h2' | h2'
          · subst h2'
            unfold sep at hsepa
            unfold ltStart
            simp only at hsepa ⊢
            omega
          · have := hcross a ha b (List.mem_cons_of_mem _ h2')
            unfold sep at this
            unfold ltStart
            omega
    rw [sortByStart_eq_of_sorted hperm hcand,
      coalesceRun_restore l1 st L n l2 (hdecomp ▸ hchain), ← hdecomp]
  · rw [if_neg hlt] at hshape
    have hLn : L = n := by omega
    have hfl' : fl' = l1 ++ l2 := by
      rw [hshape, hdecomp, ← hlen1, erase_decomp]
    have hperm : (fl' ++ [(st, n)]).Perm fl := by
      rw [hfl', List.append_assoc, hdecomp, ← hLn]
      exact List.Perm.append_left l1 (List.perm_append_singleton _ _)
    rw [sortByStart_eq_of_sorted hperm hltfl, coalesceRun_no_merge hchain]

theorem mallocFF_result (b u : Int) (fl : List Block) (s : Stats) :
    ((mallocFF b u fl s).2.1 = fl ∧ (mallocFF b u fl s).1 = -1) ∨
    (round_up_units b u ≠ 0 ∧
      ∃ i L, CarvedAt (round_up_units b u) fl i (mallocFF b u fl s).1 L
        (mallocFF b u fl s).2.1) := by
  by_cases hn : round_up_units b u = 0
  · left
    simp [mallocFF, hn]
  · have hm : mallocFF b u fl s =
        ffScan (round_up_units b u) fl { s with alloc_calls := s.alloc_calls + 1 } := by
      simp [mallocFF, hn]
    by_cases hfit : ∃ blk ∈ fl, round_up_units b u ≤ blk.2
    · right
      refine ⟨hn, ?_⟩
      obtain ⟨i, st, L, hc, hloc, _⟩ :=
        ffScan_fit fl { s with alloc_calls := s.alloc_calls + 1 } hfit
      rw [hm]
      refine ⟨i, L, ?_⟩
      rw [hloc]
      exact hc
    · left
      push_neg at hfit
      have hno := ffScan_no_fit fl { s with alloc_calls := s.alloc_calls + 1 }
        (fun blk hb => lt_of_not_le (by simpa using hfit blk hb))
      rw [hm, hno]
      exact ⟨rfl, rfl⟩

theorem mallocBF_result (b u : Int) (fl : List Block) (s : Stats) :
    ((mallocBF b u fl s).2.1 = fl ∧ (mallocBF b u fl s).1 = -1) ∨
    (round_up_units b u ≠ 0 ∧
      ∃ i L, CarvedAt (round_up_units b u) fl i (mallocBF b u fl s).1 L
        (mallocBF b u fl s).2.1) := by
  by_cases hn : round_up_units b u = 0
  · left
    simp [mallocBF, hn]
  · rcases hch : bfChoose (round_up_units b u) fl 0 none with _ | ⟨i, st, L⟩
    · left
      simp [mallocBF, hn, hch]
    · right
      rcases bfChoose_some_src fl 0 none i st L hch with h1 | ⟨k, hk, hik, hfit⟩
      · simp at h1
      · have hik' : i = k := by omega
        subst hik'
        have h1 : (mallocBF b u fl s).1 = st := by
          simp [mallocBF, hn, hch]
        have h21 : (mallocBF b u fl s).2.1 =
            carve (round_up_units b u) fl i := by
          simp [mallocBF, hn, hch]
        refine ⟨hn, i, L, ?_, hfit, ?_⟩
        · rw [h1]
          exact hk
        · rw [h21, carve_eq fl i _ st L hk, h1]

theorem mallocWF_result (b u : Int) (fl : List Block) (s : Stats) :
    ((mallocWF b u fl s).2.1 = fl ∧ (mallocWF b u fl s).1 = -1) ∨
    (round_up_units b u ≠ 0 ∧
      ∃ i L, CarvedAt (round_up_units b u) fl i (mallocWF b u fl s).1 L
        (mallocWF b u fl s).2.1) := by
  by_cases hn : round_up_units b u = 0
  · left
    simp [mallocWF, hn]
  · rcases hch : wfChoose (round_up_units b u) fl 0 none with _ | ⟨i, st, L⟩
    · left
      simp [mallocWF, hn, hch]
    · right
      rcases wfChoose_some_src fl 0 none i st L hch with h1 | ⟨k, hk, hik, hfit⟩
      · simp at h1
      · have hik' : i = k := by omega
        subst hik'
        have h1 : (mallocWF b u fl s).1 = st := by
          simp [mallocWF, hn, hch]
        have h21 : (mallocWF b u fl s).2.1 =
            carve (round_up_units b u) fl i := by
          simp [mallocWF, hn, hch]
        refine ⟨hn, i, L, ?_, hfit, ?_⟩
        · rw [h1]
          exact hk
        · rw [h21, carve_eq fl i _ st L hk, h1]

theorem mallocNF_result (b u : Int) (fl : List Block) (s : Stats) (last : Nat) :
    ((mallocNF b u fl s last).2.1 = fl ∧ (mallocNF b u fl s last).1 = -1 ∧
      (mallocNF b u fl s last).2.2.1 = last) ∨
    (round_up_units b u ≠ 0 ∧
      ∃ i L, CarvedAt (round_up_units b u) fl i (mallocNF b u fl s last).1 L
        (mallocNF b u fl s last).2.1) := by
  by_cases hn : round_up_units b u = 0
  · left
    have : mallocNF? b u fl s last = some (-1, fl, last, s) := by
      rw [mallocNF?]
      simp [hn]
    rw [mallocNF, this]
    exact ⟨rfl, rfl, rfl⟩
  · rcases mallocNF_shape b u fl s last rfl with ⟨h1, h2, h3⟩ | ⟨i, L, hc, _⟩
    · exact Or.inl ⟨h2, h1, h3⟩
    · exact Or.inr ⟨hn, i, L, hc⟩

theorem mallocBy_result (pol : Policy) (b u : Int) (fl : List Block)
    (s : Stats) (nfi : Nat) :
    ((mallocBy pol b u fl s nfi).2.1 = fl ∧ (mallocBy pol b u fl s nfi).1 = -1) ∨
    (round_up_units b u ≠ 0 ∧
      ∃ i L, CarvedAt (round_up_units b u) fl i (mallocBy pol b u fl s nfi).1 L
        (mallocBy pol b u fl s nfi).2.1) := by
  cases pol with
  | FF => exact mallocFF_result b u fl s
  | NF =>
    rcases mallocNF_result b u fl s nfi with ⟨h1, h2, _⟩ | h
    · exact Or.inl ⟨h1, h2⟩
    · exact Or.inr h
  | BF => exact mallocBF_result b u fl s
  | WF => exact mallocWF_result b u fl s

theorem runFrees_append : ∀ (l1 l2 : List (Int × Int)) (fl : List Block)
    (s : Stats), runFrees (l1 ++ l2) fl s =
      runFrees l2 (runFrees l1 fl s).1 (runFrees l1 fl s).2
  | [], l2, fl, s => rfl
  | (loc, un) :: t, l2, fl, s => by
    simp only [List.cons_append, runFrees]
    exact runFrees_append t l2 _ _

/-- Deallocating in reverse order undoes any successful allocation
sequence, starting from any well-formed free list with non-negative
starts. -/
theorem runAllocs_inverse {u : Int} (hu : 1 ≤ u) :
    ∀ (reqs : List (Policy × Int)) (fl0 : List Block) (nfi : Nat) (s : Stats)
      (allocs : List (Int × Int)) (fl' : List Block) (nfi' : Nat) (s' : Stats),
    runAllocs u reqs fl0 nfi s = some (allocs, fl', nfi', s') →
    WFfl fl0 → (∀ b ∈ fl0, 0 ≤ b.1) →
    ∀ (s2 : Stats), (runFrees allocs.reverse fl' s2).1 = fl0
  | [], fl0, nfi, s, allocs, fl', nfi', s', hrun, _, _, s2 => by
    simp only [runAllocs, Option.some.injEq, Prod.mk.injEq] at hrun
    obtain ⟨h1, h2, _⟩ := hrun
    subst h1
    subst h2
    rfl
  | (pol, b) :: rest, fl0, nfi, s, allocs, fl', nfi', s', hrun, hwf, hpos, s2 => by
    simp only [runAllocs] at hrun
    by_cases hfail : (mallocBy pol b u fl0 s nfi).1 = -1
    · rw [if_pos hfail] at hrun
      simp at hrun
    · rw [if_neg hfail] at hrun
      rcases hrest : runAllocs u rest (mallocBy pol b u fl0 s nfi).2.1
          (mallocBy pol b u fl0 s nfi).2.2.1 (mallocBy pol b u fl0 s nfi).2.2.2
        with _ | ⟨ps, fl2, nfi2, s3⟩
      · rw [hrest] at hrun
        simp at hrun
      · rw [hrest] at hrun
        simp only [Option.map_some', Option.some.injEq, Prod.mk.injEq] at hrun
        obtain ⟨hall, hfl2, _, _⟩ := hrun
        rcases mallocBy_result pol b u fl0 s nfi with ⟨_, hm1⟩ | ⟨hn0, i, L, hc⟩
        · exact absurd hm1 hfail
        · have hn1 : 1 ≤ round_up_units b u := by
            have : (0 : Int) ≤ round_up_units b u := round_up_nonneg hu
            omega
          have hwf1 : WFfl (mallocBy pol b u fl0 s nfi).2.1 := hc.wf hwf hn1
          have hpos1 : ∀ x ∈ (mallocBy pol b u fl0 s nfi).2.1, 0 ≤ x.1 :=
            hc.starts (by omega) hpos
          have hloc : 0 ≤ (mallocBy pol b u fl0 s nfi).1 :=
            hc.start_nonneg hpos
          subst hall
          rw [List.reverse_cons, runFrees_append]
          have hih := runAllocs_inverse hu rest
            (mallocBy pol b u fl0 s nfi).2.1
            (mallocBy pol b u fl0 s nfi).2.2.1
            (mallocBy pol b u fl0 s nfi).2.2.2 ps fl2 nfi2 s3 hrest hwf1 hpos1 s2
          rw [hfl2] at hih
          simp only [runFrees]
          rw [hih]
          exact free_carve hc hwf hloc hn1 _

theorem WFfl.pairwise_ltStart {fl : List Block} (hwf : WFfl fl) :
    fl.Pairwise ltStart := by
  refine hwf.1.imp_of_mem ?_
  intro a b ha _ hsep
  have h2 : 1 ≤ a.2 := hwf.2 a ha
  unfold sep at hsep
  unfold ltStart
  omega

/-- C5: on a well-formed free list, First Fit with a fitting request carves
the run of smallest start among all fitting runs (leftover kept, exact fit
removed); with no fitting run it leaves the list unchanged, increments
`alloc_fail` and returns -1. -/
theorem first_fit_spec (b u : Int) (fl : List Block) (s : Stats)
    (hwf : WFfl fl) (hn : 1 ≤ round_up_units b u) :
    ((∃ blk ∈ fl, round_up_units b u ≤ blk.2) →
      ∃ i st L, CarvedAt (round_up_units b u) fl i st L (mallocFF b u fl s).2.1 ∧
        (mallocFF b u fl s).1 = st ∧
        ∀ blk ∈ fl, round_up_units b u ≤ blk.2 → st ≤ blk.1) ∧
    ((∀ blk ∈ fl, blk.2 < round_up_units b u) →
      mallocFF b u fl s = (-1, fl,
        { s with alloc_calls := s.alloc_calls + 1,
                 ops_malloc := s.ops_malloc + fl.length,
                 alloc_fail := s.alloc_fail + 1 })) := by
  have hn0 : round_up_units b u ≠ 0 := by omega
  have hm : mallocFF b u fl s =
      ffScan (round_up_units b u) fl
        { s with alloc_calls := s.alloc_calls + 1 } := by
    simp [mallocFF, hn0]
  constructor
  · intro hfit
    obtain ⟨i, st, L, hc, hloc, hearly⟩ :=
      ffScan_fit fl { s with alloc_calls := s.alloc_calls + 1 } hfit
    refine ⟨i, st, L, by rw [hm]; exact hc, by rw [hm]; exact hloc, ?_⟩
    intro blk hmem hfitb
    obtain ⟨k, hk, hkeq⟩ := List.mem_iff_getElem.mp hmem
    obtain ⟨hilen, hival⟩ := List.getElem?_eq_some.mp hc.1
    rcases lt_trichotomy k i with hki | hki | hki
    · have := hearly k blk hki (List.getElem?_eq_some.mpr ⟨hk, hkeq⟩)
      omega
    · subst hki
      rw [hkeq] at hival
      rw [hival]
    · have hlt := List.pairwise_iff_getElem.mp hwf.pairwise_ltStart i k hilen hk hki
      unfold ltStart at hlt
      rw [hival, hkeq] at hlt
      simp only at hlt
      omega
  · intro hmiss
    rw [hm, ffScan_no_fit fl _ hmiss]

/-- C6: whenever some run fits, Best Fit allocates from a run of minimum
length among the fitting runs, and among runs of that minimum length it
carves the one with the lowest index. -/
theorem best_fit_spec (b u : Int) (fl : List Block) (s : Stats)
    (hn : 1 ≤ round_up_units b u)
    (hfit : ∃ blk ∈ fl, round_up_units b u ≤ blk.2) :
    ∃ i L, fl[i]? = some ((mallocBF b u fl s).1, L) ∧
      round_up_units b u ≤ L ∧
      CarvedAt (round_up_units b u) fl i (mallocBF b u fl s).1 L
        (mallocBF b u fl s).2.1 ∧
      (∀ blk ∈ fl, round_up_units b u ≤ blk.2 → L ≤ blk.2) ∧
      (∀ k blk, k < i → fl[k]? = some blk → round_up_units b u ≤ blk.2 →
        L < blk.2) := by
  have hn0 : round_up_units b u ≠ 0 := by omega
  rcases hch : bfChoose (round_up_units b u) fl 0 none with _ | ⟨i, st, L⟩
  · obtain ⟨blk, hmem, hble⟩ := hfit
    have := (bfChoose_eq_none fl 0 none).mp hch
    have := this.2 blk hmem
    omega
  · rcases bfChoose_some_src fl 0 none i st L hch with h1 | ⟨k, hk, hik, hfitL⟩
    · simp at h1
    · have hik' : i = k := by omega
      subst hik'
      have h1 : (mallocBF b u fl s).1 = st := by
        simp [mallocBF, hn0, hch]
      have h21 : (mallocBF b u fl s).2.1 = carve (round_up_units b u) fl i := by
        simp [mallocBF, hn0, hch]
      refine ⟨i, L, by rw [h1]; exact hk, hfitL, ⟨by rw [h1]; exact hk, hfitL, ?_⟩,
        ?_, ?_⟩
      · rw [h21, carve_eq fl i _ st L hk, h1]
      · exact bfChoose_min fl 0 none i st L hch
      · intro k blk hki hgb hfb
        exact bfChoose_first fl 0 none (by simp) i st L hch k blk
          (by omega) hgb hfb

/-- Worst Fit spec: a fitting request carves a run of maximum length among
the fitting runs, lowest index on ties. -/
theorem worst_fit_spec (b u : Int) (fl : List Block) (s : Stats)
    (hn : 1 ≤ round_up_units b u)
    (hfit : ∃ blk ∈ fl, round_up_units b u ≤ blk.2) :
    ∃ i L, fl[i]? = some ((mallocWF b u fl s).1, L) ∧
      round_up_units b u ≤ L ∧
      CarvedAt (round_up_units b u) fl i (mallocWF b u fl s).1 L
        (mallocWF b u fl s).2.1 ∧
      (∀ blk ∈ fl, round_up_units b u ≤ blk.2 → blk.2 ≤ L) ∧
      (∀ k blk, k < i → fl[k]? = some blk → round_up_units b u ≤ blk.2 →
        blk.2 < L) := by
  have hn0 : round_up_units b u ≠ 0 := by omega
  rcases hch : wfChoose (round_up_units b u) fl 0 none with _ | ⟨i, st, L⟩
  · obtain ⟨blk, hmem, hble⟩ := hfit
    have := (wfChoose_eq_none hn fl 0 none).mp hch
    have := this.2 blk hmem
    omega
  · rcases wfChoose_some_src fl 0 none i st L hch with h1 | ⟨k, hk, hik, hfitL⟩
    · simp at h1
    · have hik' : i = k := by omega
      subst hik'
      have h1 : (mallocWF b u fl s).1 = st := by
        simp [mallocWF, hn0, hch]
      have h21 : (mallocWF b u fl s).2.1 = carve (round_up_units b u) fl i := by
        simp [mallocWF, hn0, hch]
      refine ⟨i, L, by rw [h1]; exact hk, hfitL, ⟨by rw [h1]; exact hk, hfitL, ?_⟩,
        ?_, ?_⟩
      · rw [h21, carve_eq fl i _ st L hk, h1]
      · exact wfChoose_max hn fl 0 none i st L hch
      · intro k blk hki hgb hfb
        exact wfChoose_first hn fl 0 none (by simp) i st L hch k blk
          (by omega) hgb hfb

/-- C2 counterexample: on free list `[(0,1),(5,2)]` with cursor 0 and a
2-unit request, the allocation removes the block at index 1 (returning its
start 5), but the returned cursor is the old value 0, not the index 1 where
the allocation occurred, and the claimed decrement clause would leave it at
1.  So "the returned cursor is the index where the allocation occurred" is
false for exact fits. -/
theorem nf_cursor_counterexample :
    (mallocNF 2 1 [(0, 1), (5, 2)] stats0 0).1 = 5 ∧
    (mallocNF 2 1 [(0, 1), (5, 2)] stats0 0).2.1 = [((0 : Int), (1 : Int))] ∧
    ([((0 : Int), (1 : Int)), (5, 2)] : List Block)[1]? = some (5, 2) ∧
    (mallocNF 2 1 [(0, 1), (5, 2)] stats0 0).2.1 =
      ([((0 : Int), (1 : Int)), (5, 2)] : List Block).eraseIdx 1 ∧
    (mallocNF 2 1 [(0, 1), (5, 2)] stats0 0).2.2.1 = 0 ∧ (0 : Nat) ≠ 1 := by
  decide

/-- C2 amended: on success with a leftover, the returned cursor is the index
where the allocation occurred; on an exact fit the block is removed and the
cursor keeps its previous value, decremented by 1 exactly when the removed
index `i` is below the previous `last_index` (and that value is positive). -/
theorem nf_cursor_amended (b u : Int) (fl : List Block) (s : Stats)
    (last : Nat) (hsucc : (mallocNF b u fl s last).1 ≠ -1) :
    ∃ i L, CarvedAt (round_up_units b u) fl i (mallocNF b u fl s last).1 L
        (mallocNF b u fl s last).2.1 ∧
      (mallocNF b u fl s last).2.2.1 =
        (if round_up_units b u < L then i
          else if i < last ∧ 0 < last then last - 1 else last) := by
  rcases mallocNF_shape b u fl s last rfl with ⟨h1, _, _⟩ | ⟨i, L, hc, hli⟩
  · exact absurd h1 hsucc
  · exact ⟨i, L, hc, hli⟩

theorem nf_cursor_amended_witness :
    (mallocNF 2 1 [(0, 1), (5, 2)] stats0 0).1 ≠ -1 ∧
    ∃ i L, CarvedAt (round_up_units 2 1) [(0, 1), (5, 2)] i
        (mallocNF 2 1 [(0, 1), (5, 2)] stats0 0).1 L
        (mallocNF 2 1 [(0, 1), (5, 2)] stats0 0).2.1 ∧
      (mallocNF 2 1 [(0, 1), (5, 2)] stats0 0).2.2.1 =
        (if round_up_units 2 1 < L then i
          else if i < 0 ∧ 0 < 0 then 0 - 1 else 0) :=
  ⟨by decide, nf_cursor_amended 2 1 [(0, 1), (5, 2)] stats0 0 (by decide)⟩

/-- C3: the literal scenario with `total_units = 10`, `unit_size = 8`:
two 16-byte allocations, a release of the first, then a final 16-byte
request places at 0 under FF, at 0 under NF with the cursor at the freed
run, at 0 under BF, and at 4 under WF; and in general Worst Fit carves a
fitting run of maximum length, with ties broken by first occurrence. -/
theorem concrete_sequence_and_worst_fit :
    ((mallocFF 16 8 (init_free_list 10) stats0).1 = 0 ∧
      (let r1 := mallocFF 16 8 (init_free_list 10) stats0
       let r2 := mallocFF 16 8 r1.2.1 r1.2.2
       let r3 := free_block 0 2 r2.2.1 r2.2.2
       r2.1 = 2 ∧ r3.1 = [(0, 2), (4, 6)] ∧
       (mallocFF 16 8 r3.1 r3.2).1 = 0 ∧
       (mallocNF 16 8 r3.1 r3.2 0).1 = 0 ∧
       (mallocBF 16 8 r3.1 r3.2).1 = 0 ∧
       (mallocWF 16 8 r3.1 r3.2).1 = 4)) ∧
    (∀ (b u : Int) (fl : List Block) (s : Stats),
      1 ≤ round_up_units b u →
      (∃ blk ∈ fl, round_up_units b u ≤ blk.2) →
      ∃ i L, fl[i]? = some ((mallocWF b u fl s).1, L) ∧
        round_up_units b u ≤ L ∧
        CarvedAt (round_up_units b u) fl i (mallocWF b u fl s).1 L
          (mallocWF b u fl s).2.1 ∧
        (∀ blk ∈ fl, round_up_units b u ≤ blk.2 → blk.2 ≤ L) ∧
        (∀ k blk, k < i → fl[k]? = some blk → round_up_units b u ≤ blk.2 →
          blk.2 < L)) :=
  ⟨by decide, fun b u fl s hn hfit => worst_fit_spec b u fl s hn hfit⟩

theorem concrete_sequence_and_worst_fit_witness :
    (1 ≤ round_up_units 16 8 ∧
      ∃ blk ∈ ([(0, 2), (4, 6)] : List Block), round_up_units 16 8 ≤ blk.2) ∧
    ∃ i L, ([(0, 2), (4, 6)] : List Block)[i]? =
        some ((mallocWF 16 8 [(0, 2), (4, 6)] stats0).1, L) ∧
      round_up_units 16 8 ≤ L ∧
      CarvedAt (round_up_units 16 8) [(0, 2), (4, 6)] i
        (mallocWF 16 8 [(0, 2), (4, 6)] stats0).1 L
        (mallocWF 16 8 [(0, 2), (4, 6)] stats0).2.1 ∧
      (∀ blk ∈ ([(0, 2), (4, 6)] : List Block),
        round_up_units 16 8 ≤ blk.2 → blk.2 ≤ L) ∧
      (∀ k blk, k < i → ([(0, 2), (4, 6)] : List Block)[k]? = some blk →
        round_up_units 16 8 ≤ blk.2 → blk.2 < L) :=
  ⟨⟨by decide, by decide⟩,
    (concrete_sequence_and_worst_fit.2 16 8 [(0, 2), (4, 6)] stats0
      (by decide) (by decide))⟩

/-- C4: out-of-order releases coalesce in a single pass: from
`[(0,2),(4,2),(8,2)]`, releasing `(2,2)` yields `[(0,6),(8,2)]`, and then
releasing `(6,2)` yields `[(0,10)]`. -/
theorem coalesce_out_of_order :
    (let r1 := free_block 2 2 [(0, 2), (4, 2), (8, 2)] stats0
     r1.1 = [(0, 6), (8, 2)] ∧ (free_block 6 2 r1.1 r1.2).1 = [(0, 10)]) := by
  decide

theorem first_fit_spec_witness :
    (WFfl [(0, 2), (4, 6)] ∧ 1 ≤ round_up_units 16 8) ∧
    (∃ blk ∈ ([(0, 2), (4, 6)] : List Block), round_up_units 16 8 ≤ blk.2) ∧
    ∃ i st L, CarvedAt (round_up_units 16 8) [(0, 2), (4, 6)] i st L
        (mallocFF 16 8 [(0, 2), (4, 6)] stats0).2.1 ∧
      (mallocFF 16 8 [(0, 2), (4, 6)] stats0).1 = st ∧
      ∀ blk ∈ ([(0, 2), (4, 6)] : List Block),
        round_up_units 16 8 ≤ blk.2 → st ≤ blk.1 :=
  ⟨⟨by decide, by decide⟩, by decide,
    (first_fit_spec 16 8 [(0, 2), (4, 6)] stats0 (by decide) (by decide)).1
      (by decide)⟩

theorem best_fit_spec_witness :
    (1 ≤ round_up_units 16 8 ∧
      ∃ blk ∈ ([(0, 2), (4, 6)] : List Block), round_up_units 16 8 ≤ blk.2) ∧
    ∃ i L, ([(0, 2), (4, 6)] : List Block)[i]? =
        some ((mallocBF 16 8 [(0, 2), (4, 6)] stats0).1, L) ∧
      round_up_units 16 8 ≤ L ∧
      CarvedAt (round_up_units 16 8) [(0, 2), (4, 6)] i
        (mallocBF 16 8 [(0, 2), (4, 6)] stats0).1 L
        (mallocBF 16 8 [(0, 2), (4, 6)] stats0).2.1 ∧
      (∀ blk ∈ ([(0, 2), (4, 6)] : List Block),
        round_up_units 16 8 ≤ blk.2 → L ≤ blk.2) ∧
      (∀ k blk, k < i → ([(0, 2), (4, 6)] : List Block)[k]? = some blk →
        round_up_units 16 8 ≤ blk.2 → L < blk.2) :=
  ⟨⟨by decide, by decide⟩,
    best_fit_spec 16 8 [(0, 2), (4, 6)] stats0 (by decide) (by decide)⟩

/-- C7: free-list well-formedness (strictly ascending, disjoint,
non-touching runs of length at least 1) is preserved by every placement
operation and by any release whose range is disjoint from every current
run; `unit_size` is positive per the data model. -/
theorem wf_preservation (b u relst relun : Int) (fl : List Block)
    (s : Stats) (nfi : Nat) (hu : 1 ≤ u) (hwf : WFfl fl)
    (hdisj : ∀ blk ∈ fl, relst + relun ≤ blk.1 ∨ blk.1 + blk.2 ≤ relst) :
    WFfl (mallocFF b u fl s).2.1 ∧ WFfl (mallocNF b u fl s nfi).2.1 ∧
    WFfl (mallocBF b u fl s).2.1 ∧ WFfl (mallocWF b u fl s).2.1 ∧
    WFfl (free_block relst relun fl s).1 := by
  have hnn : 0 ≤ round_up_units b u := round_up_nonneg hu
  refine ⟨?_, ?_, ?_, ?_, free_block_wf s hwf hdisj⟩
  · rcases mallocFF_result b u fl s with ⟨h1, _⟩ | ⟨hn0, i, L, hc⟩
    · rw [h1]; exact hwf
    · exact hc.wf hwf (by omega)
  · rcases mallocNF_result b u fl s nfi with ⟨h1, _, _⟩ | ⟨hn0, i, L, hc⟩
    · rw [h1]; exact hwf
    · exact hc.wf hwf (by omega)
  · rcases mallocBF_result b u fl s with ⟨h1, _⟩ | ⟨hn0, i, L, hc⟩
    · rw [h1]; exact hwf
    · exact hc.wf hwf (by omega)
  · rcases mallocWF_result b u fl s with ⟨h1, _⟩ | ⟨hn0, i, L, hc⟩
    · rw [h1]; exact hwf
    · exact hc.wf hwf (by omega)

theorem wf_preservation_witness :
    ((1 : Int) ≤ 8 ∧ WFfl [(0, 2), (4, 6)] ∧
      (∀ blk ∈ ([(0, 2), (4, 6)] : List Block),
        (2 : Int) + 1 ≤ blk.1 ∨ blk.1 + blk.2 ≤ 2)) ∧
    (WFfl (mallocFF 16 8 [(0, 2), (4, 6)] stats0).2.1 ∧
      WFfl (mallocNF 16 8 [(0, 2), (4, 6)] stats0 0).2.1 ∧
      WFfl (mallocBF 16 8 [(0, 2), (4, 6)] stats0).2.1 ∧
      WFfl (mallocWF 16 8 [(0, 2), (4, 6)] stats0).2.1 ∧
      WFfl (free_block 2 1 [(0, 2), (4, 6)] stats0).1) :=
  ⟨⟨by decide, by decide, by decide⟩,
    wf_preservation 16 8 2 1 [(0, 2), (4, 6)] stats0 0 (by decide) (by decide)
      (by decide)⟩

/-- C8: for every sequence of successful allocations from the initial free
list, performing the matching deallocations in reverse order returns the
free list to exactly `[(0, total_units)]`. -/
theorem reverse_free_roundtrip (u total : Int) (hu : 1 ≤ u) (htot : 1 ≤ total)
    (reqs : List (Policy × Int)) (nfi : Nat) (s s2 : Stats)
    (allocs : List (Int × Int)) (fl : List Block) (nfi' : Nat) (s' : Stats)
    (hrun : runAllocs u reqs (init_free_list total) nfi s =
      some (allocs, fl, nfi', s')) :
    (runFrees allocs.reverse fl s2).1 = init_free_list total := by
  refine runAllocs_inverse hu reqs _ nfi s allocs fl nfi' s' hrun ?_ ?_ s2
  · exact ⟨List.pairwise_singleton _ _, by
      intro x hx
      simp only [init_free_list, List.mem_singleton] at hx
      subst hx
      simpa using htot⟩
  · intro x hx
    simp only [init_free_list, List.mem_singleton] at hx
    subst hx
    simp

theorem reverse_free_roundtrip_witness :
    ((1 : Int) ≤ 8 ∧ (1 : Int) ≤ 10 ∧
      runAllocs 8 [(Policy.FF, 16)] (init_free_list 10) 0 stats0 =
        some ([(0, 2)], [(2, 8)], 0, ⟨1, 0, 1, 0, 0⟩)) ∧
    (runFrees ([((0 : Int), (2 : Int))]).reverse [(2, 8)] stats0).1 =
      init_free_list 10 :=
  ⟨⟨by decide, by decide, by decide⟩,
    reverse_free_roundtrip 8 10 (by decide) (by decide) [(Policy.FF, 16)] 0
      stats0 stats0 [(0, 2)] [(2, 8)] 0 ⟨1, 0, 1, 0, 0⟩ (by decide)⟩

/-- C9: degenerate requests are silently ignored without counting a call:
a malloc of non-positive bytes returns -1 and leaves the free list and all
counters untouched under every policy, and a release with negative start or
non-positive units is a complete no-op. -/
theorem degenerate_ops_noop (b u relst relun : Int) (fl : List Block)
    (s : Stats) (nfi : Nat) (hb : b ≤ 0) (hfree : relst < 0 ∨ relun ≤ 0) :
    mallocFF b u fl s = (-1, fl, s) ∧
    mallocNF? b u fl s nfi = some (-1, fl, nfi, s) ∧
    mallocBF b u fl s = (-1, fl, s) ∧
    mallocWF b u fl s = (-1, fl, s) ∧
    free_block relst relun fl s = (fl, s) := by
  have hn : round_up_units b u = 0 := round_up_of_nonpos hb
  refine ⟨?_, ?_, ?_, ?_, free_block_noop hfree⟩
  · simp [mallocFF, hn]
  · simp [mallocNF?, hn]
  · simp [mallocBF, hn]
  · simp [mallocWF, hn]

theorem degenerate_ops_noop_witness :
    ((0 : Int) ≤ 0 ∧ ((-1 : Int) < 0 ∨ (2 : Int) ≤ 0)) ∧
    (mallocFF 0 8 [(0, 10)] stats0 = (-1, [(0, 10)], stats0) ∧
      mallocNF? 0 8 [(0, 10)] stats0 3 = some (-1, [(0, 10)], 3, stats0) ∧
      mallocBF 0 8 [(0, 10)] stats0 = (-1, [(0, 10)], stats0) ∧
      mallocWF 0 8 [(0, 10)] stats0 = (-1, [(0, 10)], stats0) ∧
      free_block (-1) 2 [(0, 10)] stats0 = ([(0, 10)], stats0)) :=
  ⟨⟨by decide, by decide⟩,
    degenerate_ops_noop 0 8 (-1) 2 [(0, 10)] stats0 3 (by decide)
      (by decide)⟩

/-- C10: `mallocNF` is total and index-safe for every cursor value, with no
clamp at entry: the checked scan (where `none` marks a Python `IndexError`)
always returns a value, because every access uses `(last_index + j) % n`
with `n = len(free_list) > 0`; on an empty free list it fails before any
list access. -/
theorem nf_total_index_safe (b u : Int) (fl : List Block) (s : Stats)
    (last : Nat) :
    (mallocNF? b u fl s last).isSome ∧
    (mallocNF? b u [] s last =
      some (-1, [], last,
        if round_up_units b u = 0 then s
        else { s with alloc_calls := s.alloc_calls + 1,
                      alloc_fail := s.alloc_fail + 1 })) := by
  refine ⟨mallocNF?_isSome b u fl s last, ?_⟩
  by_cases hn : round_up_units b u = 0
  · simp [mallocNF?, hn]
  · simp [mallocNF?, hn]

theorem mallocBy_facts (pol : Policy) (b u : Int) (fl : List Block) (s : Stats)
    (nfi : Nat) (hu : 1 ≤ u) (hpos : ∀ x ∈ fl, 0 ≤ x.1) :
    (∀ x ∈ (mallocBy pol b u fl s nfi).2.1, 0 ≤ x.1) ∧
    sumLen (mallocBy pol b u fl s nfi).2.1 ≤ sumLen fl ∧
    ((mallocBy pol b u fl s nfi).1 ≠ -1 →
      0 ≤ (mallocBy pol b u fl s nfi).1 ∧
      sumLen (mallocBy pol b u fl s nfi).2.1 =
        sumLen fl - round_up_units b u) := by
  rcases mallocBy_result pol b u fl s nfi with ⟨h1, h2⟩ | ⟨hn0, i, L, hc⟩
  · rw [h1]
    exact ⟨hpos, le_refl _, fun hne => absurd h2 hne⟩
  · have hn : 0 ≤ round_up_units b u := round_up_nonneg hu
    refine ⟨hc.starts hn hpos, ?_, fun _ => ⟨hc.start_nonneg hpos, hc.sum⟩⟩
    rw [hc.sum]
    omega

theorem arrivalAlloc_meminv (p : SimParams) (hu : 1 ≤ p.unit_size)
    (st : SimSt) (jt : JType) (rt cs ss ht : Int) (il : Bool)
    (hcs : 1 ≤ cs) (hss : 1 ≤ ss) (h : MemInv p st) :
    MemInv p (arrivalAlloc p st jt rt cs ss ht il) := by
  obtain ⟨hpos, hjobs, hsum⟩ := h
  obtain ⟨hpos1, hle1, hsucc1⟩ := mallocBy_facts p.policy cs p.unit_size
    st.free_list st.stats st.next_fit_index hu hpos
  obtain ⟨hpos2, hle2, hsucc2⟩ := mallocBy_facts p.policy ss p.unit_size
    (mallocBy p.policy cs p.unit_size st.free_list st.stats st.next_fit_index).2.1
    (mallocBy p.policy cs p.unit_size st.free_list st.stats st.next_fit_index).2.2.2
    (mallocBy p.policy cs p.unit_size st.free_list st.stats st.next_fit_index).2.2.1
    hu hpos1
  simp only [arrivalAlloc]
  by_cases hacc :
      (mallocBy p.policy cs p.unit_size st.free_list st.stats st.next_fit_index).1
        ≠ -1 ∧
      (mallocBy p.policy ss p.unit_size
        (mallocBy p.policy cs p.unit_size st.free_list st.stats
          st.next_fit_index).2.1
        (mallocBy p.policy cs p.unit_size st.free_list st.stats
          st.next_fit_index).2.2.2
        (mallocBy p.policy cs p.unit_size st.free_list st.stats
          st.next_fit_index).2.2.1).1 ≠ -1
  · rw [if_pos hacc]
    obtain ⟨hc1, hs1⟩ := hsucc1 hacc.1
    obtain ⟨hc2, hs2⟩ := hsucc2 hacc.2
    refine ⟨hpos2, ?_, ?_⟩
    · intro j hj
      simp only [List.mem_append, List.mem_singleton] at hj
      rcases hj with h1 | h1
      · exact hjobs j h1
      · subst h1
        exact ⟨hc1, hc2, hcs, hss, by simp⟩
    · simp only
      rw [hs2, hs1]
      have h1 : 1 ≤ round_up_units cs p.unit_size := round_up_pos hu hcs
      have h2 : 1 ≤ round_up_units ss p.unit_size := round_up_pos hu hss
      omega
  · rw [if_neg hacc]
    refine ⟨hpos2, hjobs, ?_⟩
    simp only
    omega

theorem arrival_meminv (p : SimParams) (hu : 1 ≤ p.unit_size) (st : SimSt)
    (h : MemInv p st) : MemInv p (arrivalPhase p st) := by
  rw [arrivalPhase]
  by_cases harr : st.next_arrival ≤ st.sim_time
  · rw [if_pos harr]
    simp only
    refine arrivalAlloc_meminv p hu _ _ _ _ _ _ _ ?_ ?_ ?_
    · split <;> omega
    · split <;> omega
    · exact h
  · rw [if_neg harr]
    exact h

theorem sweepBlocks_inv (simT : Int) (isLost : Bool) :
    ∀ (blocks : List HeapBlock) (acc : SweepAcc),
    (∀ x ∈ acc.free_list, 0 ≤ x.1) →
    (∀ hb ∈ blocks, 0 ≤ hb.loc ∧ 1 ≤ hb.units) →
    (∀ x ∈ (sweepBlocks simT isLost blocks acc).2.free_list, 0 ≤ x.1) ∧
    sumLen (sweepBlocks simT isLost blocks acc).2.free_list +
        (sweepBlocks simT isLost blocks acc).2.allocated_units =
      sumLen acc.free_list + acc.allocated_units ∧
    (∀ hb ∈ (sweepBlocks simT isLost blocks acc).1, 0 ≤ hb.loc ∧ 1 ≤ hb.units)
  | [], acc, hpos, _ => ⟨hpos, rfl, by simp [sweepBlocks]⟩
  | blk :: rest, acc, hpos, hblocks => by
    have hblk := hblocks blk (List.mem_cons_self _ _)
    have hrest : ∀ hb ∈ rest, 0 ≤ hb.loc ∧ 1 ≤ hb.units :=
      fun hb h => hblocks hb (List.mem_cons_of_mem _ h)
    rw [sweepBlocks]
    by_cases hd : blk.death ≤ simT
    · rw [if_pos hd]
      by_cases hl : isLost = false
      · rw [if_pos hl]
        simp only
        have hfr := free_block_starts blk.loc blk.units acc.free_list
          acc.stats hblk.1 hpos
        have hfs := free_block_sum blk.loc blk.units acc.free_list acc.stats
          hblk.1 hblk.2
        obtain ⟨ha, hb, hc⟩ := sweepBlocks_inv simT isLost rest
          { acc with
            free_list := (free_block blk.loc blk.units acc.free_list acc.stats).1,
            stats := (free_block blk.loc blk.units acc.free_list acc.stats).2,
            allocated_units := acc.allocated_units - blk.units,
            required_bytes_sum :=
              if acc.required_bytes_sum - blk.bytes < 0 then 0
              else acc.required_bytes_sum - blk.bytes }
          hfr hrest
        refine ⟨ha, ?_, hc⟩
        rw [hb]
        simp only
        rw [hfs]
        ring
      · rw [if_neg hl]
        obtain ⟨ha, hb, hc⟩ := sweepBlocks_inv simT isLost rest
          { acc with
            lost_count := acc.lost_count + 1,
            lost_bytes := acc.lost_bytes + blk.bytes }
          hpos hrest
        exact ⟨ha, hb, hc⟩
    · rw [if_neg hd]
      simp only
      obtain ⟨ha, hb, hc⟩ := sweepBlocks_inv simT isLost rest acc hpos hrest
      refine ⟨ha, hb, ?_⟩
      intro hb2 hmem
      rcases List.mem_cons.mp hmem with h1 | h1
      · subst h1
        exact hblk
      · exact hc hb2 h1

theorem sweepJobs_inv (simT : Int) : ∀ (jobs : List Job) (acc : SweepAcc),
    (∀ x ∈ acc.free_list, 0 ≤ x.1) → (∀ j ∈ jobs, JobOK j) →
    (∀ x ∈ (sweepJobs simT jobs acc).2.free_list, 0 ≤ x.1) ∧
    sumLen (sweepJobs simT jobs acc).2.free_list +
        (sweepJobs simT jobs acc).2.allocated_units =
      sumLen acc.free_list + acc.allocated_units ∧
    (∀ j ∈ (sweepJobs simT jobs acc).1, JobOK j)
  | [], acc, hpos, _ => ⟨hpos, rfl, by simp [sweepJobs]⟩
  | j :: rest, acc, hpos, hjobs => by
    have hj := hjobs j (List.mem_cons_self _ _)
    have hrest : ∀ x ∈ rest, JobOK x :=
      fun x h => hjobs x (List.mem_cons_of_mem _ h)
    rw [sweepJobs]
    obtain ⟨ha, hb, hc⟩ := sweepBlocks_inv simT j.is_lost j.heap_blocks acc
      hpos (fun hb h => hj.2.2.2.2 hb h)
    obtain ⟨ha2, hb2, hc2⟩ := sweepJobs_inv simT rest
      (sweepBlocks simT j.is_lost j.heap_blocks acc).2 ha hrest
    refine ⟨ha2, by rw [hb2, hb], ?_⟩
    intro x hx
    rcases List.mem_cons.mp hx with h1 | h1
    · subst h1
      exact ⟨hj.1, hj.2.1, hj.2.2.1, hj.2.2.2.1, hc⟩
    · exact hc2 x h1

theorem sweep_meminv (p : SimParams) (st : SimSt) (h : MemInv p st) :
    MemInv p (sweepPhase st) := by
  obtain ⟨hpos, hjobs, hsum⟩ := h
  rw [sweepPhase]
  obtain ⟨ha, hb, hc⟩ := sweepJobs_inv st.sim_time st.active_jobs
    { free_list := st.free_list, stats := st.stats,
      allocated_units := st.allocated_units,
      required_bytes_sum := st.required_bytes_sum,
      lost_count := st.lost_count, lost_bytes := st.lost_bytes }
    hpos hjobs
  exact ⟨ha, hc, by rw [hb]; exact hsum⟩

theorem ioComplete_meminv (p : SimParams) (st : SimSt) (h : MemInv p st) :
    MemInv p (ioCompletePhase st) := by
  rw [ioCompletePhase]
  split
  · rcases st.io_job with _ | jid
    · exact h
    · exact h
  · exact h

theorem ioStart_meminv (p0 : SimParams) (p : SimParams) (st : SimSt)
    (h : MemInv p st) : MemInv p (ioStartPhase p0 st) := by
  rw [ioStartPhase]
  rcases hi : st.io_idle with _ | _ <;> rcases hq : st.io_queue with _ | ⟨jid, rest⟩
  · exact h
  · exact h
  · exact h
  · exact h

theorem dispatch_meminv (p : SimParams) (st : SimSt) (h : MemInv p st) :
    MemInv p (dispatchPhase st) := by
  rw [dispatchPhase]
  rcases hc : st.current_job with _ | cid <;>
    rcases hq : st.ready_queue with _ | ⟨jid, rest⟩
  · exact h
  · exact h
  · exact h
  · exact h

theorem heapLoop_inv (p : SimParams) (hu : 1 ≤ p.unit_size) (simT : Int) :
    ∀ (k : Nat) (j : Job) (acc : ExecAcc),
    (∀ x ∈ acc.free_list, 0 ≤ x.1) → JobOK j →
    (∀ x ∈ (heapLoop p simT k j acc).2.free_list, 0 ≤ x.1) ∧
    sumLen (heapLoop p simT k j acc).2.free_list +
        (heapLoop p simT k j acc).2.allocated_units =
      sumLen acc.free_list + acc.allocated_units ∧
    JobOK (heapLoop p simT k j acc).1 ∧
    (heapLoop p simT k j acc).1.code_bytes = j.code_bytes ∧
    (heapLoop p simT k j acc).1.stack_bytes = j.stack_bytes ∧
    (heapLoop p simT k j acc).1.code_loc = j.code_loc ∧
    (heapLoop p simT k j acc).1.stack_loc = j.stack_loc ∧
    (heapLoop p simT k j acc).1.id = j.id ∧
    (heapLoop p simT k j acc).1.is_lost = j.is_lost
  | 0, j, acc, hpos, hj => ⟨hpos, rfl, hj, rfl, rfl, rfl, rfl, rfl, rfl⟩
  | k + 1, j, acc, hpos, hj => by
    rw [heapLoop]
    by_cases hleft : j.heap_left ≤ 0
    · rw [if_pos hleft]
      exact ⟨hpos, rfl, hj, rfl, rfl, rfl, rfl, rfl, rfl⟩
    · rw [if_neg hleft]
      simp only
      set hs0 := 35 + randInt p acc.rk (-15) 15 with hhs0
      set heap_size := if hs0 < 1 then 1 else hs0 with hhs
      have hhs1 : 1 ≤ heap_size := by
        rw [hhs]
        split <;> omega
      obtain ⟨hposm, hlem, hsuccm⟩ := mallocBy_facts p.policy heap_size
        p.unit_size acc.free_list acc.stats acc.next_fit_index hu hpos
      by_cases hres : (mallocBy p.policy heap_size p.unit_size acc.free_list
          acc.stats acc.next_fit_index).1 ≠ -1
      · rw [if_pos hres]
        obtain ⟨hloc, hsum⟩ := hsuccm hres
        have hun : 1 ≤ round_up_units heap_size p.unit_size :=
          round_up_pos hu hhs1
        have hj1 : JobOK { j with
            heap_blocks := j.heap_blocks ++
              [⟨(mallocBy p.policy heap_size p.unit_size acc.free_list
                  acc.stats acc.next_fit_index).1,
                round_up_units heap_size p.unit_size,
                simT + (if 0 < j.run_left then
                  randInt p (acc.rk + 1) 1 j.run_left else 1), heap_size⟩],
            heap_left := j.heap_left - 1 } := by
          refine ⟨hj.1, hj.2.1, hj.2.2.1, hj.2.2.2.1, ?_⟩
          intro hb hmem
          simp only [List.mem_append, List.mem_singleton] at hmem
          rcases hmem with h1 | h1
          · exact hj.2.2.2.2 hb h1
          · subst h1
            exact ⟨hloc, hun⟩
        obtain ⟨ha, hb, hc⟩ := heapLoop_inv p hu simT k
          { j with
            heap_blocks := j.heap_blocks ++
              [⟨(mallocBy p.policy heap_size p.unit_size acc.free_list
                  acc.stats acc.next_fit_index).1,
                round_up_units heap_size p.unit_size,
                simT + (if 0 < j.run_left then
                  randInt p (acc.rk + 1) 1 j.run_left else 1), heap_size⟩],
            heap_left := j.heap_left - 1 }
          { acc with
            rk := if 0 < j.run_left then acc.rk + 2 else acc.rk + 1,
            free_list := (mallocBy p.policy heap_size p.unit_size acc.free_list
              acc.stats acc.next_fit_index).2.1,
            stats := (mallocBy p.policy heap_size p.unit_size acc.free_list
              acc.stats acc.next_fit_index).2.2.2,
            next_fit_index := (mallocBy p.policy heap_size p.unit_size
              acc.free_list acc.stats acc.next_fit_index).2.2.1,
            allocated_units :=
              acc.allocated_units + round_up_units heap_size p.unit_size,
            required_bytes_sum := acc.required_bytes_sum + heap_size,
            heap_alloc_count := acc.heap_alloc_count + 1,
            heap_bytes_sum := acc.heap_bytes_sum + heap_size,
            max_allocated_units :=
              if acc.max_allocated_units <
                  acc.allocated_units + round_up_units heap_size p.unit_size
              then acc.allocated_units + round_up_units heap_size p.unit_size
              else acc.max_allocated_units }
          hposm hj1
        refine ⟨ha, ?_, hc⟩
        rw [hb]
        simp only
        rw [hsum]
        ring
      · rw [if_neg hres]
        obtain ⟨ha, hb, hc⟩ := heapLoop_inv p hu simT k j
          { acc with
            rk := if 0 < j.run_left then acc.rk + 2 else acc.rk + 1,
            free_list := (mallocBy p.policy heap_size p.unit_size acc.free_list
              acc.stats acc.next_fit_index).2.1,
            stats := (mallocBy p.policy heap_size p.unit_size acc.free_list
              acc.stats acc.next_fit_index).2.2.2,
            next_fit_index := (mallocBy p.policy heap_size p.unit_size
              acc.free_list acc.stats acc.next_fit_index).2.2.1,
            alloc_fail_count := acc.alloc_fail_count + 1 }
          hposm hj
        have hunch : (mallocBy p.policy heap_size p.unit_size acc.free_list
            acc.stats acc.next_fit_index).2.1 = acc.free_list := by
          rcases mallocBy_result p.policy heap_size p.unit_size acc.free_list
            acc.stats acc.next_fit_index with ⟨h1, _⟩ | ⟨_, i, L, hcv⟩
          · exact h1
          · have := hcv.start_nonneg hpos
            omega
        refine ⟨ha, ?_, hc⟩
        rw [hb]
        simp only
        rw [hunch]

theorem freeHeapBlocks_inv : ∀ (blocks : List HeapBlock) (st : SimSt),
    (∀ x ∈ st.free_list, 0 ≤ x.1) →
    (∀ hb ∈ blocks, 0 ≤ hb.loc ∧ 1 ≤ hb.units) →
    (∀ x ∈ (freeHeapBlocks blocks st).free_list, 0 ≤ x.1) ∧
    sumLen (freeHeapBlocks blocks st).free_list +
        (freeHeapBlocks blocks st).allocated_units =
      sumLen st.free_list + st.allocated_units ∧
    (freeHeapBlocks blocks st).active_jobs = st.active_jobs
  | [], st, hpos, _ => ⟨hpos, rfl, rfl⟩
  | blk :: rest, st, hpos, hblocks => by
    have hblk := hblocks blk (List.mem_cons_self _ _)
    rw [freeHeapBlocks]
    have hfr := free_block_starts blk.loc blk.units st.free_list st.stats
      hblk.1 hpos
    have hfs := free_block_sum blk.loc blk.units st.free_list st.stats
      hblk.1 hblk.2
    obtain ⟨ha, hb, hc⟩ := freeHeapBlocks_inv rest
      { st with
        free_list := (free_block blk.loc blk.units st.free_list st.stats).1,
        stats := (free_block blk.loc blk.units st.free_list st.stats).2,
        allocated_units := st.allocated_units - blk.units,
        required_bytes_sum :=
          if st.required_bytes_sum - blk.bytes < 0 then 0
          else st.required_bytes_sum - blk.bytes }
      hfr (fun hb h => hblocks hb (List.mem_cons_of_mem _ h))
    refine ⟨ha, ?_, hc⟩
    rw [hb]
    simp only
    rw [hfs]
    ring

theorem finishJob_meminv (p : SimParams) (hu : 1 ≤ p.unit_size) (st : SimSt)
    (j : Job) (hj : JobOK j) (h : MemInv p st) :
    MemInv p (finishJob p st j) := by
  obtain ⟨hpos, hjobs, hsum⟩ := h
  rw [finishJob]
  simp only
  have hcu : 1 ≤ round_up_units j.code_bytes p.unit_size :=
    round_up_pos hu hj.2.2.1
  have hsu : 1 ≤ round_up_units j.stack_bytes p.unit_size :=
    round_up_pos hu hj.2.2.2.1
  have hf1pos := free_block_starts j.stack_loc
    (round_up_units j.stack_bytes p.unit_size) st.free_list st.stats
    hj.2.1 hpos
  have hf1sum := free_block_sum j.stack_loc
    (round_up_units j.stack_bytes p.unit_size) st.free_list st.stats
    hj.2.1 hsu
  have hf2pos := free_block_starts j.code_loc
    (round_up_units j.code_bytes p.unit_size)
    (free_block j.stack_loc (round_up_units j.stack_bytes p.unit_size)
      st.free_list st.stats).1
    (free_block j.stack_loc (round_up_units j.stack_bytes p.unit_size)
      st.free_list st.stats).2
    hj.1 hf1pos
  have hf2sum := free_block_sum j.code_loc
    (round_up_units j.code_bytes p.unit_size)
    (free_block j.stack_loc (round_up_units j.stack_bytes p.unit_size)
      st.free_list st.stats).1
    (free_block j.stack_loc (round_up_units j.stack_bytes p.unit_size)
      st.free_list st.stats).2
    hj.1 hcu
  by_cases hlost : j.is_lost = false
  · rw [if_pos hlost]
    obtain ⟨ha, hb, hc⟩ := freeHeapBlocks_inv j.heap_blocks
      { st with
        free_list := (free_block j.code_loc
          (round_up_units j.code_bytes p.unit_size)
          (free_block j.stack_loc (round_up_units j.stack_bytes p.unit_size)
            st.free_list st.stats).1
          (free_block j.stack_loc (round_up_units j.stack_bytes p.unit_size)
            st.free_list st.stats).2).1,
        stats := (free_block j.code_loc
          (round_up_units j.code_bytes p.unit_size)
          (free_block j.stack_loc (round_up_units j.stack_bytes p.unit_size)
            st.free_list st.stats).1
          (free_block j.stack_loc (round_up_units j.stack_bytes p.unit_size)
            st.free_list st.stats).2).2,
        allocated_units := st.allocated_units -
          (round_up_units j.code_bytes p.unit_size +
            round_up_units j.stack_bytes p.unit_size),
        required_bytes_sum :=
          if st.required_bytes_sum - (j.code_bytes + j.stack_bytes) < 0 then 0
          else st.required_bytes_sum - (j.code_bytes + j.stack_bytes) }
      hf2pos hj.2.2.2.2
    refine ⟨ha, ?_, ?_⟩
    · rw [hc]
      simp only
      intro x hx
      exact hjobs x (List.mem_of_mem_filter hx)
    · rw [hb]
      simp only
      rw [hf2sum, hf1sum]
      omega
  · rw [if_neg hlost]
    refine ⟨hf2pos, ?_, ?_⟩
    · simp only
      intro x hx
      exact hjobs x (List.mem_of_mem_filter hx)
    · simp only
      rw [hf2sum, hf1sum]
      omega

theorem updateJob_jobok {jobs : List Job} (hjobs : ∀ x ∈ jobs, JobOK x)
    {j : Job} (hj : JobOK j) : ∀ x ∈ updateJob jobs j, JobOK x := by
  intro x hx
  simp only [updateJob, List.mem_map] at hx
  obtain ⟨y, hy, hxy⟩ := hx
  by_cases hid : (y.id == j.id) = true
  · rw [if_pos hid] at hxy
    subst hxy
    exact hj
  · rw [if_neg hid] at hxy
    subst hxy
    exact hjobs y hy

theorem execRun_meminv (p : SimParams) (hu : 1 ≤ p.unit_size) (st : SimSt)
    (j : Job) (hj : JobOK j) (h : MemInv p st) :
    MemInv p (execRun p st j) := by
  obtain ⟨hpos, hjobs, hsum⟩ := h
  obtain ⟨ha, hb, hc, _⟩ := heapLoop_inv p hu st.sim_time
    j.heap_per_tick.toNat j (execAcc0 st) hpos hj
  rw [execRun]
  simp only
  set r := heapLoop p st.sim_time j.heap_per_tick.toNat j (execAcc0 st) with hr
  have hj1 : JobOK { r.1 with run_left := r.1.run_left - 1 } := hc
  have hsum1 : sumLen r.2.free_list + r.2.allocated_units ≤ p.total_units := by
    rw [hb]
    exact hsum
  have hst1 : MemInv p { st with
      rk := r.2.rk,
      free_list := r.2.free_list,
      stats := r.2.stats,
      next_fit_index := r.2.next_fit_index,
      allocated_units := r.2.allocated_units,
      required_bytes_sum := r.2.required_bytes_sum,
      heap_alloc_count := r.2.heap_alloc_count,
      heap_bytes_sum := r.2.heap_bytes_sum,
      max_allocated_units := r.2.max_allocated_units,
      alloc_fail_count := r.2.alloc_fail_count,
      active_jobs := updateJob st.active_jobs
        { r.1 with run_left := r.1.run_left - 1 } } :=
    ⟨ha, updateJob_jobok hjobs hj1, hsum1⟩
  split
  · exact finishJob_meminv p hu _ _ hj1 hst1
  · exact hst1

theorem execLast_meminv (p : SimParams) (hu : 1 ≤ p.unit_size) (st : SimSt)
    (j : Job) (hj : JobOK j) (h : MemInv p st) :
    MemInv p (execLast p st j) := by
  obtain ⟨hpos, hjobs, hsum⟩ := h
  rw [execLast]
  simp only
  have hj1 : JobOK { j with run_left := j.run_left - 1 } := hj
  have hst1 : MemInv p
      { st with
        active_jobs := updateJob st.active_jobs { j with run_left := j.run_left - 1 } } :=
    ⟨hpos, updateJob_jobok hjobs hj1, hsum⟩
  split
  · exact finishJob_meminv p hu _ _ hj1 hst1
  · exact hst1

theorem exec_meminv (p : SimParams) (hu : 1 ≤ p.unit_size) (st : SimSt)
    (h : MemInv p st) : MemInv p (execPhase p st) := by
  obtain ⟨hpos, hjobs, hsum⟩ := h
  rw [execPhase]
  split
  · exact ⟨hpos, hjobs, hsum⟩
  · split
    · exact ⟨hpos, hjobs, hsum⟩
    · rename_i oj j hf
      have hjmem : j ∈ st.active_jobs := by
        have hf2 := hf
        unfold findJob at hf2
        exact List.mem_of_find?_eq_some hf2
      have hj : JobOK j := hjobs j hjmem
      by_cases hrun : 1 < j.run_left
      · rw [if_pos hrun]
        by_cases hio : ioRoll p st.rk
        · rw [if_pos hio]
          exact ⟨hpos, hjobs, hsum⟩
        · rw [if_neg hio]
          exact execRun_meminv p hu st j hj ⟨hpos, hjobs, hsum⟩
      · rw [if_neg hrun]
        exact execLast_meminv p hu st j hj ⟨hpos, hjobs, hsum⟩

theorem tick_meminv (p : SimParams) (hu : 1 ≤ p.unit_size) (st : SimSt)
    (h : MemInv p st) : MemInv p (tick p st) := by
  rw [tick]
  exact exec_meminv p hu _ (dispatch_meminv p _ (ioStart_meminv p p _
    (ioComplete_meminv p _ (sweep_meminv p _ (arrival_meminv p hu st h)))))

theorem init_meminv (p : SimParams) (htot : 0 ≤ p.total_units) :
    MemInv p (initSt p) := by
  refine ⟨?_, ?_, ?_⟩
  · intro b hb
    simp only [initSt, init_free_list, List.mem_singleton] at hb
    subst hb
    exact le_refl 0
  · intro j hj
    simp [initSt] at hj
  · simp only [initSt, init_free_list, sumLen, List.map_cons, List.map_nil,
      List.sum_cons, List.sum_nil]
    omega

/-- C1 counterexample: a stack-fail-after-code-success arrival is reachable
(at tick 1, a small job draws code 80 bytes = 10 units, which exact-fits
the whole memory, and stack 20 bytes = 3 units then fails), after which the
code units are gone from the free list but `allocated_units` was never
credited: at the end of tick 1 the free list is empty, `allocated_units` is
0, and `sum(free) + allocated_units = 0 ≠ 10 = total_units`.  The claimed
equality therefore fails in a reachable end-of-tick state. -/
theorem conservation_counterexample :
    (simSteps cexParams 2).free_list = [] ∧
    (simSteps cexParams 2).allocated_units = 0 ∧
    (simSteps cexParams 2).alloc_fail_count = 1 ∧
    sumLen (simSteps cexParams 2).free_list +
      (simSteps cexParams 2).allocated_units ≠ cexParams.total_units := by
  decide

/-- C1 (amended): in every reachable end-of-tick state of `simulate` (for a
positive unit size and non-negative total), the sum of the lengths of all
free runs plus `allocated_units` is at most `total_units`; equality can
fail only through partial-arrival leaks, where one of the code or stack
allocations of a rejected job succeeded and is never rolled back or
credited. -/
theorem conservation_bound (p : SimParams) (hu : 1 ≤ p.unit_size)
    (htot : 0 ≤ p.total_units) (k : Nat) :
    sumLen (simSteps p k).free_list + (simSteps p k).allocated_units ≤
      p.total_units := by
  have hinv : MemInv p (simSteps p k) := by
    induction k with
    | zero => simpa [simSteps] using init_meminv p htot
    | succ n ih =>
      rw [simSteps, Function.iterate_succ_apply']
      exact tick_meminv p hu _ (by rwa [simSteps] at ih)
  exact hinv.2.2

theorem conservation_bound_witness :
    (1 : Int) ≤ cexParams.unit_size ∧ (0 : Int) ≤ cexParams.total_units ∧
    sumLen (simSteps cexParams 2).free_list +
      (simSteps cexParams 2).allocated_units ≤ cexParams.total_units :=
  ⟨by decide, by decide, conservation_bound cexParams (by decide) (by decide) 2⟩

end MemSim
